import Mathlib

/-! # Steganography engine of `stego.cpp`: shallow embedding and verified properties

The two codecs of `src/stego.cpp` are embedded as functions on byte lists.

* A `vector<unsigned char>` is a `List Byte` with `Byte = Fin 256`.
* The file collaborators `FileUtils::readFile` / `FileUtils::writeFile` are
  abstracted away: `hideData` takes the bytes of the container file and returns
  the bytes written to the output file, `revealData` takes the bytes of the
  container file.
* `size_t` is 64 bits wide and `uint32_t` 32 bits wide; arithmetic on them is
  written with an explicit `% SIZE_MOD` / `% UINT32_MOD`.
* `operator[]` of `std::vector` is unchecked.  An access outside the vector is
  undefined behaviour in C++; here it is the distinguished outcome
  `Failure.outOfBounds`, which is neither a normal return nor a thrown
  `SteganographyException`.
-/

namespace Stego

/-- One `unsigned char`. -/
abbrev Byte := Fin 256

/-- Number of values of a `size_t` (64-bit target). -/
def SIZE_MOD : Nat := 2 ^ 64

/-- Number of values of a `uint32_t`. -/
def UINT32_MOD : Nat := 2 ^ 32

/-- The `SteganographyException`s thrown by the engine, one constructor per
`throw` site (the message text is given by `SteganographyException.what`). -/
inductive SteganographyException where
  /-- thrown by `ImageSteganography::hideData` when `isValidBMP` fails -/
  | invalidContainerHide
  /-- thrown by `ImageSteganography::revealData` when `isValidBMP` fails -/
  | invalidContainerReveal
  /-- thrown by `ImageSteganography::hideData` when the frame does not fit -/
  | capacity (requiredBytes availableBytes : Nat)
  /-- thrown by `ImageSteganography::revealData` on a signature mismatch -/
  | noHiddenDataImage
  /-- thrown by both `revealData` functions on a bad length field -/
  | invalidDataSize
  /-- thrown by `DocumentSteganography::revealData` when the file has fewer than 8 bytes -/
  | tooSmall
  /-- thrown by `DocumentSteganography::revealData` when the scan finds no signature -/
  | noHiddenDataDocument
  /-- thrown by `Steganography::selectEngine` -/
  | unsupportedFormat (ext : String)
  deriving DecidableEq, Repr

/-- The message carried by each exception. -/
def SteganographyException.what : SteganographyException → String
  | .invalidContainerHide => "Container must be a valid BMP image"
  | .invalidContainerReveal => "File is not a valid BMP image"
  | .capacity requiredBytes availableBytes =>
      "Image too small to hide data. Need " ++ toString requiredBytes ++ " bytes, have "
        ++ toString availableBytes
  | .noHiddenDataImage => "No hidden data found in image"
  | .invalidDataSize => "Invalid data size detected"
  | .tooSmall => "File too small to contain hidden data"
  | .noHiddenDataDocument => "No hidden data found in document"
  | .unsupportedFormat ext => "Unsupported file format: " ++ ext ++ ". Supported: BMP, PDF, DOCX"

/-- How a run can end without a result. -/
inductive Failure where
  /-- a `SteganographyException` was thrown -/
  | exception (e : SteganographyException)
  /-- an unchecked `operator[]` went outside the vector (undefined behaviour) -/
  | outOfBounds
  deriving DecidableEq, Repr

/-- Unchecked `v[i]` of a `std::vector<unsigned char>`; `i` is a `size_t`. -/
def vecGet (v : List Byte) (i : Nat) : Except Failure Byte :=
  match v[i]? with
  | some b => .ok b
  | none => .error .outOfBounds

/-- A loop `for (int i = 0; i < n; i++) body` whose body does not use `i`. -/
def iterateM {σ : Type} (f : σ → Except Failure σ) : Nat → σ → Except Failure σ
  | 0, s => .ok s
  | n + 1, s => f s >>= iterateM f n

/-- The index list `hi-1, hi-2, ..., 0` of a loop `for (int i = hi-1; i >= 0; i--)`. -/
def downFrom (hi : Nat) : List Nat := (List.range hi).reverse

/-- Two's-complement value of a 32-bit pattern read as an `int`. -/
def wrapInt32 (u : Nat) : Int :=
  if u % 2 ^ 32 < 2 ^ 31 then ((u % 2 ^ 32 : Nat) : Int) else ((u % 2 ^ 32 : Nat) : Int) - 2 ^ 32

/-- Conversion of an `int` to `size_t`. -/
def intToSizeT (v : Int) : Nat := (v % (2 ^ 64 : Int)).toNat

/-! ## `ImageSteganography` (LSB method for BMP images) -/

namespace ImageSteganography

/-- `SIGNATURE = 0x53544547`, "STEG". -/
def SIGNATURE : Nat := 0x53544547

/-- `isValidBMP`: at least 54 bytes, starting with 'B' 'M'. -/
def isValidBMP (imageData : List Byte) : Bool :=
  if imageData.length < 54 then false
  else imageData[0]? == some 66 && imageData[1]? == some 77

/-- `getPixelDataOffset`: the four header bytes are promoted to `int`, shifted
and or-ed in `int`, and the `int` is converted to the `size_t` return type. -/
def getPixelDataOffset (imageData : List Byte) : Except Failure Nat := do
  let b10 ← vecGet imageData 10
  let b11 ← vecGet imageData 11
  let b12 ← vecGet imageData 12
  let b13 ← vecGet imageData 13
  pure (intToSizeT (wrapInt32
    (b10.val ||| (b11.val <<< 8) ||| (b12.val <<< 16) ||| (b13.val <<< 24))))

/-- `embedBit`: `(carrier & 0xFE) | bit`, converted back to `unsigned char`. -/
def embedBit (carrier : Byte) (bit : Nat) : Byte :=
  Fin.ofNat ((carrier.val &&& 0xFE) ||| bit)

/-- `extractBit`: `carrier & 0x01`. -/
def extractBit (carrier : Byte) : Nat := carrier.val &&& 0x01

/-- The statement pair
`image[pixelOffset + bitIndex] = embedBit(image[pixelOffset + bitIndex], bit); bitIndex++;`
on the state `(image, bitIndex)`. -/
def embedStep (pixelOffset : Nat) (st : List Byte × Nat) (bit : Nat) :
    Except Failure (List Byte × Nat) := do
  let idx := (pixelOffset + st.2) % SIZE_MOD
  let c ← vecGet st.1 idx
  pure (st.1.set idx (embedBit c bit), (st.2 + 1) % SIZE_MOD)

/-- `ImageSteganography::hideData` on the bytes of the container file; the
result is the byte vector handed to `writeFile`. -/
def hideData (data image : List Byte) : Except Failure (List Byte) := do
  if !isValidBMP image then
    throw (.exception .invalidContainerHide)
  let pixelOffset ← getPixelDataOffset image
  let availableBytes := ((image.length + SIZE_MOD - pixelOffset) % SIZE_MOD) / 8
  let requiredBytes := (data.length + 4 + 4) % SIZE_MOD
  if requiredBytes > availableBytes then
    throw (.exception (.capacity requiredBytes availableBytes))
  -- Embed signature
  let st ← (downFrom 32).foldlM
    (fun st i => embedStep pixelOffset st ((SIGNATURE >>> i) &&& 1)) (image, 0)
  -- Embed data size
  let dataSize := data.length % UINT32_MOD
  let st ← (downFrom 32).foldlM
    (fun st i => embedStep pixelOffset st ((dataSize >>> i) &&& 1)) st
  -- Embed actual data
  let st ← data.foldlM
    (fun st byte => (downFrom 8).foldlM
      (fun st i => embedStep pixelOffset st ((byte.val >>> i) &&& 1)) st) st
  pure st.1

/-- The loop body
`x = (x << 1) | extractBit(image[pixelOffset + bitIndex]); bitIndex++;`
for a `uint32_t` accumulator `x`, on the state `(x, bitIndex)`. -/
def readStep32 (image : List Byte) (pixelOffset : Nat) (st : Nat × Nat) :
    Except Failure (Nat × Nat) := do
  let c ← vecGet image ((pixelOffset + st.2) % SIZE_MOD)
  pure ((((st.1 <<< 1) % UINT32_MOD) ||| extractBit c), (st.2 + 1) % SIZE_MOD)

/-- The loop body
`byte = (byte << 1) | extractBit(image[pixelOffset + bitIndex]); bitIndex++;`
for an `unsigned char` accumulator, on the state `(byte, bitIndex)`. -/
def readStep8 (image : List Byte) (pixelOffset : Nat) (st : Byte × Nat) :
    Except Failure (Byte × Nat) := do
  let c ← vecGet image ((pixelOffset + st.2) % SIZE_MOD)
  pure (Fin.ofNat ((st.1.val <<< 1) ||| extractBit c), (st.2 + 1) % SIZE_MOD)

/-- `ImageSteganography::revealData` on the bytes of the container file. -/
def revealData (image : List Byte) : Except Failure (List Byte) := do
  if !isValidBMP image then
    throw (.exception .invalidContainerReveal)
  let pixelOffset ← getPixelDataOffset image
  -- Extract and verify signature
  let (signature, bitIndex) ← iterateM (readStep32 image pixelOffset) 32 (0, 0)
  if signature ≠ SIGNATURE then
    throw (.exception .noHiddenDataImage)
  -- Extract data size
  let (dataSize, bitIndex) ← iterateM (readStep32 image pixelOffset) 32 (0, bitIndex)
  if dataSize = 0 ∨ dataSize > image.length then
    throw (.exception .invalidDataSize)
  -- Extract actual data
  let (result, _) ← (List.range dataSize).foldlM
    (fun (st : List Byte × Nat) i => do
      let (byte, bitIndex) ← iterateM (readStep8 image pixelOffset) 8 (0, st.2)
      pure (st.1.set i byte, bitIndex))
    (List.replicate dataSize 0, bitIndex)
  pure result

end ImageSteganography

/-! ## `DocumentSteganography` (EOF appending for PDF and DOCX) -/

namespace DocumentSteganography

/-- `SIGNATURE = 0x44535447`, "DSTG". -/
def SIGNATURE : Nat := 0x44535447

/-- The loop `for (int i = 3; i >= 0; i--) output.push_back((x >> (i * 8)) & 0xFF);`. -/
def pushBE32 (output : List Byte) (x : Nat) : List Byte :=
  (downFrom 4).foldl (fun out i => out ++ [Fin.ofNat ((x >>> (i * 8)) &&& 0xFF)]) output

/-- `DocumentSteganography::hideData` on the bytes of the container file; the
result is the byte vector handed to `writeFile`. -/
def hideData (data document : List Byte) : List Byte :=
  -- Copy original document
  let output := ([] : List Byte) ++ document
  -- Append signature
  let output := pushBE32 output SIGNATURE
  -- Append data size
  let dataSize := data.length % UINT32_MOD
  let output := pushBE32 output dataSize
  -- Append actual data
  output ++ data

/-- The loop `x = 0; for (int j = 0; j < 4; j++) x = (x << 8) | document[base + j];`
for a `uint32_t` accumulator `x`. -/
def readBE32 (document : List Byte) (base : Nat) : Except Failure Nat :=
  (List.range 4).foldlM
    (fun x j => do
      let b ← vecGet document ((base + j) % SIZE_MOD)
      pure (((x <<< 8) % UINT32_MOD) ||| b.val))
    0

/-- The backward search `for (size_t i = start; i > 0; i--)`: the result is the
first `i` (counting down from `start`, never reaching 0) whose four bytes spell
the signature, or `none` when the loop runs out (`found == false`). -/
def scanBackward (document : List Byte) : Nat → Except Failure (Option Nat)
  | 0 => pure none
  | i + 1 => do
    let sig ← readBE32 document (i + 1)
    if sig = SIGNATURE then pure (some (i + 1))
    else scanBackward document i

/-- `DocumentSteganography::revealData` on the bytes of the container file. -/
def revealData (document : List Byte) : Except Failure (List Byte) := do
  if document.length < 8 then
    throw (.exception .tooSmall)
  -- Search backwards for signature
  let found ← scanBackward document ((document.length + SIZE_MOD - 8) % SIZE_MOD)
  match found with
  | none => throw (.exception .noHiddenDataDocument)
  | some sigPos =>
    -- Extract data size
    let dataSize ← readBE32 document ((sigPos + 4) % SIZE_MOD)
    if dataSize = 0 ∨ (sigPos + 8 + dataSize) % SIZE_MOD > document.length then
      throw (.exception .invalidDataSize)
    -- Extract data
    (List.range dataSize).foldlM
      (fun (result : List Byte) i => do
        let b ← vecGet document ((sigPos + 8 + i) % SIZE_MOD)
        pure (result.set i b))
      (List.replicate dataSize 0)

end DocumentSteganography

/-! ## `FileUtils::getExtension` and `Steganography::selectEngine`

A `std::string` is a `List Char`; `::tolower` (C locale) is `Char.toLower`, which maps
'A'..'Z' to 'a'..'z' and leaves every other character unchanged. -/

namespace FileUtils

/-- Search of `std::string::find_last_of(c)` among the positions below `n`: the greatest
position `i < n` with `s[i] == c`, or `none` (`string::npos`) when there is none. -/
def findLastOfBelow (s : List Char) (c : Char) : Nat → Option Nat
  | 0 => none
  | n + 1 => if s[n]? = some c then some n else findLastOfBelow s c n

/-- `filename.find_last_of(c)`. -/
def findLastOf (s : List Char) (c : Char) : Option Nat := findLastOfBelow s c s.length

/-- `FileUtils::getExtension`: the text after the last '.', in lower case; the empty
string when there is no '.'. -/
def getExtension (filename : List Char) : List Char :=
  match findLastOf filename '.' with
  | none => []
  | some pos => (filename.drop (pos + 1)).map Char.toLower

end FileUtils

/-- The engine object created by `Steganography::selectEngine`. -/
inductive Engine where
  /-- `new ImageSteganography()` -/
  | image
  /-- `new DocumentSteganography()` -/
  | document
  deriving DecidableEq, Repr

namespace Steganography

/-- `Steganography::selectEngine`: the engine chosen for a container path, or the
exception for an unsupported extension. -/
def selectEngine (containerFile : List Char) : Except Failure Engine :=
  let ext := FileUtils.getExtension containerFile
  if ext = ['b', 'm', 'p'] then .ok .image
  else if ext = ['p', 'd', 'f'] ∨ ext = ['d', 'o', 'c', 'x'] then .ok .document
  else .error (.exception (.unsupportedFormat (String.mk ext)))

end Steganography

/-! ## Vocabulary of the properties -/

/-- Largest size of a `std::vector<unsigned char>` (`max_size()`, `PTRDIFF_MAX`). -/
def MAX_SIZE : Nat := 2 ^ 63 - 1

/-- Byte `b` with bit `k` inverted. -/
def flipBit (b : Byte) (k : Nat) : Byte := Fin.ofNat (b.val ^^^ (1 <<< k))

/-- The byte vector `v` with bit `k` of the byte at index `idx` inverted. -/
def flipBitAt (v : List Byte) (idx k : Nat) : List Byte :=
  match v[idx]? with
  | some b => v.set idx (flipBit b k)
  | none => v

/-- The byte vector `v` with the bytes from index `idx` on overwritten by `bytes`. -/
def replaceAt (v : List Byte) (idx : Nat) (bytes : List Byte) : List Byte :=
  v.take idx ++ bytes ++ v.drop (idx + bytes.length)

namespace DocumentSteganography

/-- The four signature bytes "DSTG" in file order. -/
def sigBytes : List Byte := [0x44, 0x53, 0x54, 0x47]

/-- Big-endian encoding of an unsigned 32-bit value. -/
def be32 (x : Nat) : List Byte :=
  [Fin.ofNat (x / 2 ^ 24 % 256), Fin.ofNat (x / 2 ^ 16 % 256), Fin.ofNat (x / 2 ^ 8 % 256),
    Fin.ofNat (x % 256)]

/-- The unsigned value of a byte string read as a big-endian number. -/
def beValue (bytes : List Byte) : Nat := bytes.foldl (fun a b => a * 256 + b.val) 0

/-- The four bytes of `doc` starting at offset `q` spell the signature. -/
def SigAt (doc : List Byte) (q : Nat) : Prop := (doc.drop q).take 4 = sigBytes

instance (doc : List Byte) (q : Nat) : Decidable (SigAt doc q) := by
  unfold SigAt; infer_instance

end DocumentSteganography

namespace ImageSteganography

/-- The `w` low bits of `x`, most significant first, as the loops
`for (int i = w-1; i >= 0; i--) (x >> i) & 1` produce them. -/
def bitsMSB (w x : Nat) : List Nat := (downFrom w).map (fun i => (x >>> i) &&& 1)

/-- The bits of the frame (signature, length, payload) in embedding order. -/
def frameBits (data : List Byte) : List Nat :=
  bitsMSB 32 SIGNATURE ++ (bitsMSB 32 (data.length % UINT32_MOD)
    ++ data.flatMap (fun byte => bitsMSB 8 byte.val))

/-- The `uint32_t` formed most-significant-bit first from the low bits of `seg`. -/
def value32 (seg : List Byte) : Nat :=
  seg.foldl (fun a c => ((a <<< 1) % UINT32_MOD) ||| extractBit c) 0

/-- The `unsigned char` formed most-significant-bit first from the low bits of `seg`. -/
def value8 (seg : List Byte) : Byte :=
  seg.foldl (fun (a : Byte) c => Fin.ofNat ((a.val <<< 1) ||| extractBit c)) 0

/-- The image `image` with the bits of the frame of `data` written into the low bits
of the bytes from index `off` on, all other bits kept. -/
def embedded (data image : List Byte) (off : Nat) : List Byte :=
  image.take off
    ++ (List.zipWith embedBit ((image.drop off).take (64 + 8 * data.length)) (frameBits data)
      ++ image.drop (off + (64 + 8 * data.length)))

/-- The `uint32_t` accumulated from a list of bits, most significant first. -/
def bitsValue32 (bits : List Nat) : Nat :=
  bits.foldl (fun a b => ((a <<< 1) % UINT32_MOD) ||| b) 0

/-- The `unsigned char` accumulated from a list of bits, most significant first. -/
def bitsValue8 (bits : List Nat) : Byte :=
  bits.foldl (fun (a : Byte) b => Fin.ofNat ((a.val <<< 1) ||| b)) 0

/-- A small bitmap carrier: the 54-byte header 'B' 'M' with raster offset `off` in byte
10, followed by `raster` zero bytes. -/
def sampleCarrier (off raster : Nat) : List Byte :=
  [66, 77] ++ List.replicate 8 0 ++ [Fin.ofNat off, 0, 0, 0] ++ List.replicate 40 0
    ++ List.replicate raster 0

/-- A 118-byte carrier: the header with raster offset 54 and 64 raster bytes whose low
bits spell the signature and the length 1; the raster ends where the payload bits
would start. -/
def overrunCarrier : List Byte :=
  sampleCarrier 54 0 ++ (bitsMSB 32 SIGNATURE ++ bitsMSB 32 1).map Fin.ofNat

/-- A 54-byte carrier whose header bytes 10..13 are `00 00 00 80`: the little-endian
raster offset 2^31. -/
def signedOffsetCarrier : List Byte :=
  [66, 77] ++ List.replicate 8 0 ++ [0, 0, 0, 0x80] ++ List.replicate 40 0

/-- The unsigned little-endian 32-bit value of header bytes 10..13 (0 for a missing
byte). -/
def headerOffsetLE (imageData : List Byte) : Nat :=
  (imageData.getD 10 0).val + 2 ^ 8 * (imageData.getD 11 0).val
    + 2 ^ 16 * (imageData.getD 12 0).val + 2 ^ 24 * (imageData.getD 13 0).val

/-- A 336-byte carrier with raster offset 8 that already holds, from byte 264 on, the
frame of the one-byte payload `0x41` in the low bits of its raster bytes. -/
def staleCarrier : List Byte := embedded [0x41] (sampleCarrier 8 282) 264

/-- A 118-byte carrier whose header bytes 10..13 are `ff ff ff ff`, followed by 64
zero raster bytes. -/
def wrapCarrier : List Byte :=
  [66, 77] ++ List.replicate 8 0 ++ [0xff, 0xff, 0xff, 0xff] ++ List.replicate 40 0
    ++ List.replicate 64 0

/-- The number whose binary digits, most significant first, are the low bits (value
mod 2) of the bytes of `seg`: the low bit of the first byte has weight
`2 ^ (seg.length - 1)`, that of the last byte weight 1. -/
def lowBitsValue : List Byte → Nat
  | [] => 0
  | c :: rest => c.val % 2 * 2 ^ rest.length + lowBitsValue rest

/-- A 126-byte carrier with raster offset 54 whose 72 raster bytes all have the value
`0xA6`. -/
def grayCarrier : List Byte := sampleCarrier 54 0 ++ List.replicate 72 0xA6

end ImageSteganography

/-! ## Lemmas on the trailer codec -/

theorem vecGet_of_getElem? {v : List Byte} {i : Nat} {b : Byte} (h : v[i]? = some b) :
    vecGet v i = .ok b := by
  simp [vecGet, h]

theorem vecGet_of_le {v : List Byte} {i : Nat} (h : v.length ≤ i) :
    vecGet v i = .error .outOfBounds := by
  simp [vecGet, List.getElem?_eq_none h]

theorem shl_or_eq (x b k : Nat) (hb : b < 2 ^ k) : (x <<< k) ||| b = x * 2 ^ k + b := by
  rw [Nat.shiftLeft_eq, Nat.mul_comm, Nat.mul_add_lt_is_or hb]

namespace DocumentSteganography

theorem shl8_or (x : Nat) (b : Byte) (hx : x < 2 ^ 24) :
    ((x <<< 8) % UINT32_MOD) ||| b.val = x * 256 + b.val := by
  have h1 : x <<< 8 = x * 256 := by rw [Nat.shiftLeft_eq]
  have h2 : (x <<< 8) % UINT32_MOD = x <<< 8 := by
    rw [h1]; exact Nat.mod_eq_of_lt (by simp only [UINT32_MOD]; omega)
  rw [h2, shl_or_eq x b.val 8 b.isLt]
  norm_num

theorem readBE32_eq (doc : List Byte) (base : Nat) (b0 b1 b2 b3 : Byte)
    (hb : base + 3 < SIZE_MOD)
    (h0 : doc[base]? = some b0) (h1 : doc[base + 1]? = some b1)
    (h2 : doc[base + 2]? = some b2) (h3 : doc[base + 3]? = some b3) :
    readBE32 doc base
      = .ok (b0.val * 2 ^ 24 + b1.val * 2 ^ 16 + b2.val * 2 ^ 8 + b3.val) := by
  have e0 : (base + 0) % SIZE_MOD = base := Nat.mod_eq_of_lt (by omega)
  have e1 : (base + 1) % SIZE_MOD = base + 1 := Nat.mod_eq_of_lt (by omega)
  have e2 : (base + 2) % SIZE_MOD = base + 2 := Nat.mod_eq_of_lt (by omega)
  have e3 : (base + 3) % SIZE_MOD = base + 3 := Nat.mod_eq_of_lt (by omega)
  have r : List.range 4 = [0, 1, 2, 3] := by decide
  have s0 := shl8_or 0 b0 (by norm_num)
  have s1 := shl8_or (0 * 256 + b0.val) b1 (by omega)
  have s2 := shl8_or ((0 * 256 + b0.val) * 256 + b1.val) b2 (by omega)
  have s3 := shl8_or (((0 * 256 + b0.val) * 256 + b1.val) * 256 + b2.val) b3 (by omega)
  simp only [readBE32, r, List.foldlM_cons, List.foldlM_nil, e0, e1, e2, e3,
    vecGet_of_getElem? h0, vecGet_of_getElem? h1, vecGet_of_getElem? h2, vecGet_of_getElem? h3,
    bind, Except.bind, pure, Except.pure, s0, s1, s2, s3]
  refine congrArg Except.ok ?_
  ring

theorem downFrom_four : downFrom 4 = [3, 2, 1, 0] := by decide

theorem and_255 (x : Nat) : x &&& 0xFF = x % 256 := Nat.and_pow_two_sub_one_eq_mod x 8

theorem pushBE32_eq (output : List Byte) (x : Nat) (hx : x < 2 ^ 32) :
    pushBE32 output x = output ++ be32 x := by
  simp only [pushBE32, downFrom_four, List.foldl_cons, List.foldl_nil, be32, and_255,
    Nat.shiftRight_eq_div_pow, List.append_assoc, List.singleton_append]
  have h : x / 2 ^ 24 % 256 = x / 2 ^ 24 := by omega
  simp [h]

theorem pushBE32_signature (output : List Byte) :
    pushBE32 output SIGNATURE = output ++ sigBytes := by
  rw [pushBE32_eq _ _ (by decide)]
  rfl

theorem hideData_eq (data document : List Byte) :
    hideData data document
      = document ++ (sigBytes ++ (be32 (data.length % 2 ^ 32) ++ data)) := by
  have h : data.length % 2 ^ 32 < 2 ^ 32 := Nat.mod_lt _ (by norm_num)
  simp only [hideData, pushBE32_signature, UINT32_MOD, pushBE32_eq _ _ h, List.nil_append,
    List.append_assoc]

theorem drop_eq_four {doc : List Byte} {q : Nat} (h : q + 4 ≤ doc.length) :
    ∃ b0 b1 b2 b3 rest, doc.drop q = b0 :: b1 :: b2 :: b3 :: rest := by
  have hl : (doc.drop q).length = doc.length - q := List.length_drop q doc
  match hd : doc.drop q with
  | [] => rw [hd] at hl; simp at hl; omega
  | [_] => rw [hd] at hl; simp at hl; omega
  | [_, _] => rw [hd] at hl; simp at hl; omega
  | [_, _, _] => rw [hd] at hl; simp at hl; omega
  | b0 :: b1 :: b2 :: b3 :: rest => exact ⟨b0, b1, b2, b3, rest, rfl⟩

theorem readBE32_drop {doc : List Byte} {q : Nat} {b0 b1 b2 b3 : Byte} {rest : List Byte}
    (hq : q + 3 < SIZE_MOD) (hd : doc.drop q = b0 :: b1 :: b2 :: b3 :: rest) :
    readBE32 doc q = .ok (b0.val * 2 ^ 24 + b1.val * 2 ^ 16 + b2.val * 2 ^ 8 + b3.val) := by
  have g : ∀ j, doc[q + j]? = (b0 :: b1 :: b2 :: b3 :: rest)[j]? := by
    intro j; rw [← hd, List.getElem?_drop]
  exact readBE32_eq doc q b0 b1 b2 b3 hq (by simpa using g 0) (by simpa using g 1)
    (by simpa using g 2) (by simpa using g 3)

theorem be_value_eq_signature (b0 b1 b2 b3 : Byte) :
    b0.val * 2 ^ 24 + b1.val * 2 ^ 16 + b2.val * 2 ^ 8 + b3.val = SIGNATURE
      ↔ [b0, b1, b2, b3] = sigBytes := by
  have h0 := b0.isLt
  have h1 := b1.isLt
  have h2 := b2.isLt
  have h3 := b3.isLt
  simp only [SIGNATURE, sigBytes, List.cons.injEq, and_true, Fin.ext_iff]
  norm_num
  omega

/-- Reading four bytes inside the document yields the signature value exactly
when the bytes are the signature bytes. -/
theorem readBE32_signature_iff {doc : List Byte} {q : Nat} (hq : q + 4 ≤ doc.length)
    (hs : doc.length ≤ SIZE_MOD) :
    ∃ v, readBE32 doc q = .ok v ∧ (v = SIGNATURE ↔ SigAt doc q) := by
  obtain ⟨b0, b1, b2, b3, rest, hd⟩ := drop_eq_four hq
  refine ⟨_, readBE32_drop (by omega) hd, ?_⟩
  rw [be_value_eq_signature, SigAt, hd]
  simp

theorem scanBackward_none {doc : List Byte} (hs : doc.length ≤ SIZE_MOD) :
    ∀ n, n + 4 ≤ doc.length → (∀ q, 1 ≤ q → q ≤ n → ¬ SigAt doc q) →
      scanBackward doc n = .ok none
  | 0, _, _ => rfl
  | n + 1, hn, hno => by
    obtain ⟨v, hv, hiff⟩ := readBE32_signature_iff (q := n + 1) hn hs
    have hne : v ≠ SIGNATURE := fun h => hno (n + 1) (by omega) (le_refl _) (hiff.mp h)
    have ih := scanBackward_none hs n (by omega) (fun q h1 h2 => hno q h1 (by omega))
    simp [scanBackward, hv, bind, Except.bind, hne, ih]

theorem scanBackward_some {doc : List Byte} (hs : doc.length ≤ SIZE_MOD) {p : Nat}
    (hp1 : 1 ≤ p) (hp : SigAt doc p) :
    ∀ n, n + 4 ≤ doc.length → p ≤ n → (∀ q, p < q → q ≤ n → ¬ SigAt doc q) →
      scanBackward doc n = .ok (some p)
  | 0, _, hpn, _ => by omega
  | n + 1, hn, hpn, hno => by
    obtain ⟨v, hv, hiff⟩ := readBE32_signature_iff (q := n + 1) hn hs
    by_cases hpe : p = n + 1
    · subst hpe
      simp [scanBackward, hv, bind, Except.bind, hiff.mpr hp, pure, Except.pure]
    · have hne : v ≠ SIGNATURE := fun h => hno (n + 1) (by omega) (le_refl _) (hiff.mp h)
      have ih := scanBackward_some hs hp1 hp n (by omega) (by omega)
        (fun q h1 h2 => hno q h1 (by omega))
      simp [scanBackward, hv, bind, Except.bind, hne, ih]

theorem copy_loop (doc : List Byte) (s n : Nat) (h : s + n ≤ doc.length)
    (hs : doc.length ≤ SIZE_MOD) :
    ∀ m, m ≤ n →
      (List.range m).foldlM
        (fun (result : List Byte) i => do
          let b ← vecGet doc ((s + i) % SIZE_MOD)
          pure (result.set i b))
        (List.replicate n 0)
      = .ok ((doc.drop s).take m ++ List.replicate (n - m) 0)
  | 0, _ => by simp [pure, Except.pure]
  | m + 1, hm => by
    have ih := copy_loop doc s n h hs m (by omega)
    have hlt : s + m < doc.length := by omega
    have e : (s + m) % SIZE_MOD = s + m := Nat.mod_eq_of_lt (by omega)
    have hg : vecGet doc (s + m) = .ok doc[s + m] :=
      vecGet_of_getElem? (List.getElem?_eq_getElem hlt)
    have hlen : ((doc.drop s).take m).length = m := by
      rw [List.length_take, List.length_drop]; omega
    have hrep : List.replicate (n - m) (0 : Byte) = 0 :: List.replicate (n - (m + 1)) 0 := by
      have : n - m = (n - (m + 1)) + 1 := by omega
      rw [this, List.replicate_succ]
    have htake : (doc.drop s).take (m + 1) = (doc.drop s).take m ++ [doc[s + m]] := by
      rw [List.take_succ, List.getElem?_drop, List.getElem?_eq_getElem hlt]
      rfl
    rw [List.range_succ, List.foldlM_append, ih]
    simp only [bind, Except.bind, List.foldlM_cons, List.foldlM_nil, e, hg, pure, Except.pure]
    rw [List.set_append_right _ _ (by omega), hlen, Nat.sub_self, hrep, List.set_cons_zero,
      htake, List.append_assoc]
    rfl

theorem be32_value (L : Nat) (hL : L < 2 ^ 32) :
    ((Fin.ofNat (L / 2 ^ 24 % 256) : Byte).val * 2 ^ 24
      + (Fin.ofNat (L / 2 ^ 16 % 256) : Byte).val * 2 ^ 16
      + (Fin.ofNat (L / 2 ^ 8 % 256) : Byte).val * 2 ^ 8
      + (Fin.ofNat (L % 256) : Byte).val) = L := by
  simp only [Fin.ofNat, Nat.mod_mod]
  norm_num
  omega

theorem length_frame (A R : List Byte) (L : Nat) :
    (A ++ (sigBytes ++ (be32 L ++ R))).length = A.length + 8 + R.length := by
  simp [sigBytes, be32]; omega

theorem sigAt_frame (A X : List Byte) : SigAt (A ++ (sigBytes ++ X)) A.length := by
  simp [SigAt, sigBytes]

theorem revealData_frame (A R : List Byte) (L : Nat) (hA : A ≠ []) (hL : L < 2 ^ 32)
    (hsize : (A ++ (sigBytes ++ (be32 L ++ R))).length ≤ MAX_SIZE)
    (hlast : ∀ q, A.length < q → q ≤ A.length + R.length →
      ¬ SigAt (A ++ (sigBytes ++ (be32 L ++ R))) q) :
    revealData (A ++ (sigBytes ++ (be32 L ++ R)))
      = if L = 0 ∨ R.length < L then .error (.exception .invalidDataSize)
        else .ok (R.take L) := by
  have hlen := length_frame A R L
  have hApos : 1 ≤ A.length := List.length_pos.mpr hA
  have hM : SIZE_MOD = 18446744073709551616 := by norm_num [SIZE_MOD]
  have hX : MAX_SIZE = 9223372036854775807 := by norm_num [MAX_SIZE]
  generalize hdoc : A ++ (sigBytes ++ (be32 L ++ R)) = doc at hlen hsize hlast ⊢
  have hstart : (doc.length + SIZE_MOD - 8) % SIZE_MOD = A.length + R.length := by
    rw [hM, hlen]; rw [hX, hlen] at hsize; omega
  have hscan : scanBackward doc (A.length + R.length) = .ok (some A.length) :=
    scanBackward_some (by rw [hX] at hsize; rw [hM]; omega) hApos (by rw [← hdoc]; exact sigAt_frame A _)
      _ (by omega) (by omega) hlast
  have hdrop4 : doc.drop (A.length + 4) = be32 L ++ R := by
    rw [← hdoc, List.drop_append_eq_append_drop]
    simp [sigBytes]
  have hread : readBE32 doc ((A.length + 4) % SIZE_MOD) = .ok L := by
    have e : (A.length + 4) % SIZE_MOD = A.length + 4 :=
      Nat.mod_eq_of_lt (by rw [hX, hlen] at hsize; omega)
    rw [e, readBE32_drop (by rw [hX, hlen] at hsize; omega) (by rw [hdrop4]; rfl), be32_value L hL]
  have hdrop8 : doc.drop (A.length + 8) = R := by
    rw [← hdoc, List.drop_append_eq_append_drop]
    simp [sigBytes, be32]
  have hnot : ¬ doc.length < 8 := by omega
  have hsz : doc.length ≤ SIZE_MOD := by rw [hX] at hsize; rw [hM]; omega
  unfold revealData
  rw [if_neg hnot, hstart]
  simp only [hscan, bind, Except.bind, pure, Except.pure]
  rw [hread]
  simp only []
  have hcond : (L = 0 ∨ (A.length + 8 + L) % SIZE_MOD > doc.length) ↔ (L = 0 ∨ R.length < L) := by
    rw [hM, hlen]; rw [hX, hlen] at hsize; omega
  rw [if_congr hcond rfl rfl]
  by_cases hc : L = 0 ∨ R.length < L
  · rw [if_pos hc, if_pos hc]
  · rw [if_neg hc, if_neg hc]
    have := copy_loop doc (A.length + 8) L (by omega) hsz L (le_refl _)
    simp only [bind, Except.bind, pure, Except.pure] at this
    rw [this, hdrop8]
    simp

theorem hideData_length (P C : List Byte) :
    (hideData P C).length = C.length + 8 + P.length := by
  rw [hideData_eq, length_frame]

theorem replaceAt_length_field (P C : List Byte) (L : Nat) :
    replaceAt (hideData P C) (C.length + 4) (be32 L) = C ++ (sigBytes ++ (be32 L ++ P)) := by
  have h4 : (be32 L).length = 4 := rfl
  have ht : (C ++ (sigBytes ++ (be32 (P.length % 2 ^ 32) ++ P))).take (C.length + 4)
      = C ++ sigBytes := by
    rw [List.take_append]; rfl
  have hd : (C ++ (sigBytes ++ (be32 (P.length % 2 ^ 32) ++ P))).drop (C.length + 4 + 4)
      = P := by
    rw [Nat.add_assoc, List.drop_append]; rfl
  rw [hideData_eq, replaceAt, h4, ht, hd, List.append_assoc, List.append_assoc]

theorem flipBitAt_signature (P C : List Byte) (j k : Nat) (hj : j < 4) :
    flipBitAt (hideData P C) (C.length + j) k
      = C ++ (sigBytes.set j (flipBit (sigBytes.getD j 0) k)
          ++ (be32 (P.length % 2 ^ 32) ++ P)) := by
  rw [hideData_eq]
  have hg : (C ++ (sigBytes ++ (be32 (P.length % 2 ^ 32) ++ P)))[C.length + j]?
      = some (sigBytes.getD j 0) := by
    rw [List.getElem?_append_right (by omega), Nat.add_sub_cancel_left,
      List.getElem?_append_left (by simpa [sigBytes] using hj)]
    interval_cases j <;> rfl
  rw [flipBitAt, hg]
  simp only []
  rw [List.set_append_right _ _ (by omega), Nat.add_sub_cancel_left,
    List.set_append_left _ _ (by simpa [sigBytes] using hj)]

theorem flipped_signature_ne (j k : Nat) (hj : j < 4) (hk : k < 8) :
    sigBytes.set j (flipBit (sigBytes.getD j 0) k) ≠ sigBytes := by
  interval_cases j <;> interval_cases k <;> decide

theorem not_sigAt_flipped (C X : List Byte) (j k : Nat) (hj : j < 4) (hk : k < 8) :
    ¬ SigAt (C ++ (sigBytes.set j (flipBit (sigBytes.getD j 0) k) ++ X)) C.length := by
  intro h
  apply flipped_signature_ne j k hj hk
  have hl : (sigBytes.set j (flipBit (sigBytes.getD j 0) k)).length = 4 := by
    simp [sigBytes]
  rw [SigAt, List.drop_left, ← hl, List.take_left] at h
  exact h

end DocumentSteganography

/-! ## Properties of the trailer codec -/

namespace DocumentSteganography

/-- C4 (Trailer embed layout). For a payload shorter than 2^32 bytes the output of
`DocumentSteganography::hideData` is the carrier, then the bytes 0x44 0x53 0x54 0x47,
then the payload length as a big-endian 32-bit value, then the payload; its length is
`len(C) + 8 + len(P)` and its first `len(C)` bytes are the carrier. -/
theorem hideData_layout (P C : List Byte) (hP : P.length < 2 ^ 32) :
    hideData P C = C ++ [0x44, 0x53, 0x54, 0x47] ++ be32 P.length ++ P
      ∧ (hideData P C).length = C.length + 8 + P.length
      ∧ (hideData P C).take C.length = C := by
  have h := hideData_eq P C
  rw [Nat.mod_eq_of_lt hP] at h
  refine ⟨?_, hideData_length P C, ?_⟩
  · rw [h]; simp [sigBytes]
  · rw [h, List.take_left]

/-- Instance of C4 from the specification: a 100-byte payload in a 5000-byte carrier
gives 5108 bytes whose first 5000 bytes are the carrier. -/
theorem hideData_layout_witness :
    (List.replicate 100 (0 : Byte)).length < 2 ^ 32
      ∧ (hideData (List.replicate 100 0) (List.replicate 5000 0)).length = 5108
      ∧ (hideData (List.replicate 100 0) (List.replicate 5000 0)).take 5000
          = List.replicate 5000 0 := by
  have hlt : (List.replicate 100 (0 : Byte)).length < 2 ^ 32 := by
    rw [List.length_replicate]; norm_num
  have h := hideData_layout (List.replicate 100 0) (List.replicate 5000 0) hlt
  refine ⟨hlt, ?_, ?_⟩
  · rw [h.2.1, List.length_replicate, List.length_replicate]
  · have h2 := h.2.2
    rwa [List.length_replicate] at h2

/-- Extraction after embedding, when the scan meets no signature after the start of
the appended frame. -/
theorem revealData_hideData_aux (P C : List Byte) (hC : C ≠ []) (hP0 : 0 < P.length)
    (hP : P.length < 2 ^ 32) (hsize : C.length + 8 + P.length ≤ MAX_SIZE)
    (hno : ∀ q, C.length < q → q ≤ C.length + P.length → ¬ SigAt (hideData P C) q) :
    revealData (hideData P C) = .ok P := by
  have h := hideData_eq P C
  rw [Nat.mod_eq_of_lt hP] at h
  rw [h] at hno ⊢
  rw [revealData_frame C P P.length hC hP (by rw [length_frame]; exact hsize) hno,
    if_neg (by omega), List.take_length]

/-- Counterexample to C2 as stated: a payload that itself contains a frame is not
returned; the scan stops at the signature inside the payload. -/
theorem trailer_round_trip_counterexample :
    0 < [0x44, 0x53, 0x54, 0x47, 0, 0, 0, 1, (0x41 : Byte)].length
      ∧ [0x44, 0x53, 0x54, 0x47, 0, 0, 0, 1, (0x41 : Byte)].length < 2 ^ 32
      ∧ revealData (hideData [0x44, 0x53, 0x54, 0x47, 0, 0, 0, 1, 0x41] [7]) = .ok [0x41]
      ∧ revealData (hideData [0x44, 0x53, 0x54, 0x47, 0, 0, 0, 1, 0x41] [7])
          ≠ .ok [0x44, 0x53, 0x54, 0x47, 0, 0, 0, 1, 0x41] := by
  have h : revealData (hideData [0x44, 0x53, 0x54, 0x47, 0, 0, 0, 1, 0x41] [7])
      = .ok [0x41] := by rfl
  refine ⟨by decide, by decide, h, ?_⟩
  rw [h]
  intro hc
  cases hc

/-- C2, amended (Trailer round trip). For a non-empty carrier and a payload with
`0 < len(P) < 2^32`, when no offset after the appended frame's start that the backward
scan examines (`len(C) < q <= len(C) + len(P)`) holds the four signature bytes,
`revealData` of the output of `hideData` returns exactly the payload. -/
theorem trailer_round_trip (P C : List Byte) (hC : C ≠ []) (hP0 : 0 < P.length)
    (hP : P.length < 2 ^ 32) (hsize : C.length + 8 + P.length ≤ MAX_SIZE)
    (hno : ∀ q, C.length < q → q ≤ C.length + P.length → ¬ SigAt (hideData P C) q) :
    revealData (hideData P C) = .ok P :=
  revealData_hideData_aux P C hC hP0 hP hsize hno

/-- Instance of the amended C2 on a one-byte carrier and a one-byte payload. -/
theorem trailer_round_trip_witness :
    ([7] : List Byte) ≠ [] ∧ 0 < [(0x41 : Byte)].length ∧ [(0x41 : Byte)].length < 2 ^ 32
      ∧ ([7] : List Byte).length + 8 + [(0x41 : Byte)].length ≤ MAX_SIZE
      ∧ (∀ q, ([7] : List Byte).length < q → q ≤ ([7] : List Byte).length + [(0x41 : Byte)].length →
          ¬ SigAt (hideData [0x41] [7]) q)
      ∧ revealData (hideData [0x41] [7]) = .ok [0x41] := by
  have hno : ∀ q, ([7] : List Byte).length < q →
      q ≤ ([7] : List Byte).length + [(0x41 : Byte)].length → ¬ SigAt (hideData [0x41] [7]) q := by
    intro q h1 h2
    have hq : q = 2 := by simp at h1 h2; omega
    subst hq
    decide
  exact ⟨by decide, by decide, by decide, by decide, hno,
    trailer_round_trip [0x41] [7] (by decide) (by decide) (by decide) (by decide) hno⟩

/-- Counterexample to C6 as stated: when the second payload itself contains a frame,
extraction returns the payload of that inner frame, not the second payload. -/
theorem backward_scan_counterexample :
    0 < [(0x42 : Byte)].length ∧ [(0x42 : Byte)].length < 2 ^ 32
      ∧ 0 < [0x44, 0x53, 0x54, 0x47, 0, 0, 0, 1, (0x41 : Byte)].length
      ∧ [0x44, 0x53, 0x54, 0x47, 0, 0, 0, 1, (0x41 : Byte)].length < 2 ^ 32
      ∧ revealData (hideData [0x44, 0x53, 0x54, 0x47, 0, 0, 0, 1, 0x41] (hideData [0x42] [7]))
          ≠ .ok [0x44, 0x53, 0x54, 0x47, 0, 0, 0, 1, 0x41] := by
  have h : revealData (hideData [0x44, 0x53, 0x54, 0x47, 0, 0, 0, 1, 0x41]
      (hideData [0x42] [7])) = .ok [0x41] := by rfl
  refine ⟨by decide, by decide, by decide, by decide, ?_⟩
  rw [h]
  intro hc
  cases hc

/-- C6, amended (backward-scan correctness). For every carrier C, every payload P1 and
every payload P2 with `0 < len(P2) < 2^32`, when no offset after the start of the second
frame that the backward scan examines holds the four signature bytes, extraction from
`hideData(P2, hideData(P1, C))` returns P2, the payload of the frame nearest the end. -/
theorem backward_scan_two_frames (P1 P2 C : List Byte) (hP0 : 0 < P2.length)
    (hP : P2.length < 2 ^ 32)
    (hsize : (hideData P1 C).length + 8 + P2.length ≤ MAX_SIZE)
    (hno : ∀ q, (hideData P1 C).length < q → q ≤ (hideData P1 C).length + P2.length →
      ¬ SigAt (hideData P2 (hideData P1 C)) q) :
    revealData (hideData P2 (hideData P1 C)) = .ok P2 := by
  have hne : hideData P1 C ≠ [] := by
    intro h0
    have := hideData_length P1 C
    rw [h0] at this
    simp only [List.length_nil] at this
    omega
  exact revealData_hideData_aux P2 (hideData P1 C) hne hP0 hP hsize hno

/-- Instance of the amended C6: two one-byte payloads stacked on an empty carrier. -/
theorem backward_scan_two_frames_witness :
    0 < [(0x42 : Byte)].length ∧ [(0x42 : Byte)].length < 2 ^ 32
      ∧ (hideData [0x41] []).length + 8 + [(0x42 : Byte)].length ≤ MAX_SIZE
      ∧ (∀ q, (hideData [0x41] []).length < q →
          q ≤ (hideData [0x41] []).length + [(0x42 : Byte)].length →
          ¬ SigAt (hideData [0x42] (hideData [0x41] [])) q)
      ∧ revealData (hideData [0x42] (hideData [0x41] [])) = .ok [0x42] := by
  have hl : (hideData [0x41] []).length = 9 := by decide
  have hno : ∀ q, (hideData [0x41] []).length < q →
      q ≤ (hideData [0x41] []).length + [(0x42 : Byte)].length →
      ¬ SigAt (hideData [0x42] (hideData [0x41] [])) q := by
    intro q h1 h2
    rw [hl] at h1 h2
    have hq : q = 10 := by simp at h2; omega
    subst hq
    decide
  exact ⟨by decide, by decide, by decide, hno,
    backward_scan_two_frames [0x41] [0x42] [] (by decide) (by decide) (by decide) hno⟩

/-- Counterexample to C7 as stated: the carrier already holds a frame, so after a bit
of the appended signature is flipped the scan finds the older frame and extraction
succeeds instead of failing. -/
theorem tamper_signature_counterexample :
    0 < [(0x42 : Byte)].length ∧ [(0x42 : Byte)].length < 2 ^ 32
      ∧ revealData (flipBitAt (hideData [0x42] (hideData [0x41] [7]))
          ((hideData [0x41] [7]).length + 0) 0) = .ok [0x41]
      ∧ revealData (flipBitAt (hideData [0x42] (hideData [0x41] [7]))
          ((hideData [0x41] [7]).length + 0) 0)
          ≠ .error (.exception .noHiddenDataDocument) := by
  have h : revealData (flipBitAt (hideData [0x42] (hideData [0x41] [7]))
      ((hideData [0x41] [7]).length + 0) 0) = .ok [0x41] := by rfl
  refine ⟨by decide, by decide, h, ?_⟩
  rw [h]
  intro hc
  cases hc

/-- C7, amended (tamper detection, trailer signature). For every carrier C and payload
P with `0 < len(P) < 2^32`, after any single bit of the four signature bytes of the
appended frame is flipped, `revealData` fails with "No hidden data found in document"
provided the tampered file holds the four signature bytes at no other offset `q >= 1`. -/
theorem tamper_signature_detected (P C : List Byte) (j k : Nat) (hP0 : 0 < P.length)
    (hP : P.length < 2 ^ 32) (hsize : C.length + 8 + P.length ≤ MAX_SIZE)
    (hj : j < 4) (hk : k < 8)
    (hno : ∀ q, 1 ≤ q → q ≠ C.length →
      ¬ SigAt (flipBitAt (hideData P C) (C.length + j) k) q) :
    revealData (flipBitAt (hideData P C) (C.length + j) k)
      = .error (.exception .noHiddenDataDocument) := by
  have hM : SIZE_MOD = 18446744073709551616 := by norm_num [SIZE_MOD]
  have hX : MAX_SIZE = 9223372036854775807 := by norm_num [MAX_SIZE]
  have hT := flipBitAt_signature P C j k hj
  have hlen : (flipBitAt (hideData P C) (C.length + j) k).length
      = C.length + 8 + P.length := by
    rw [hT]; simp [sigBytes, be32]; omega
  have hat : ¬ SigAt (flipBitAt (hideData P C) (C.length + j) k) C.length := by
    rw [hT]; exact not_sigAt_flipped C _ j k hj hk
  generalize flipBitAt (hideData P C) (C.length + j) k = T at hno hlen hat ⊢
  have hstart : (T.length + SIZE_MOD - 8) % SIZE_MOD = C.length + P.length := by
    rw [hM, hlen]; rw [hX] at hsize; omega
  have hscan : scanBackward T (C.length + P.length) = .ok none :=
    scanBackward_none (by rw [hM, hlen]; rw [hX] at hsize; omega) _ (by omega)
      (fun q h1 _ => by
        by_cases hq : q = C.length
        · rw [hq]; exact hat
        · exact hno q h1 hq)
  unfold revealData
  rw [if_neg (by omega), hstart]
  simp only [hscan, bind, Except.bind, pure, Except.pure]
  rfl

/-- Instance of the amended C7: bit 0 of the first signature byte is flipped. -/
theorem tamper_signature_detected_witness :
    0 < [(0x41 : Byte)].length ∧ [(0x41 : Byte)].length < 2 ^ 32
      ∧ ([7] : List Byte).length + 8 + [(0x41 : Byte)].length ≤ MAX_SIZE
      ∧ (∀ q, 1 ≤ q → q ≠ ([7] : List Byte).length →
          ¬ SigAt (flipBitAt (hideData [0x41] [7]) (([7] : List Byte).length + 0) 0) q)
      ∧ revealData (flipBitAt (hideData [0x41] [7]) (([7] : List Byte).length + 0) 0)
          = .error (.exception .noHiddenDataDocument) := by
  have hno : ∀ q, 1 ≤ q → q ≠ ([7] : List Byte).length →
      ¬ SigAt (flipBitAt (hideData [0x41] [7]) (([7] : List Byte).length + 0) 0) q := by
    intro q _ _
    by_cases hq : q < 10
    · interval_cases q <;> decide
    · intro hs
      have hl : ((flipBitAt (hideData [0x41] [7]) (([7] : List Byte).length + 0) 0).drop q).take 4
          = [] := by
        rw [List.drop_of_length_le (by simp [flipBitAt, hideData_length]; omega)]
        rfl
      rw [SigAt, hl] at hs
      cases hs
  exact ⟨by decide, by decide, by decide, hno,
    tamper_signature_detected [0x41] [7] 0 0 (by decide) (by decide) (by decide) (by decide)
      (by decide) hno⟩

/-- Counterexample to C10 as stated: the payload itself contains a frame, so after the
length field is replaced by a larger value the scan still stops at the signature
inside the payload and extraction succeeds instead of failing. -/
theorem tamper_length_counterexample :
    0 < [0x44, 0x53, 0x54, 0x47, 0, 0, 0, 1, (0x41 : Byte)].length
      ∧ [0x44, 0x53, 0x54, 0x47, 0, 0, 0, 1, (0x41 : Byte)].length < 2 ^ 32
      ∧ [0x44, 0x53, 0x54, 0x47, 0, 0, 0, 1, (0x41 : Byte)].length < 10
      ∧ revealData (replaceAt (hideData [0x44, 0x53, 0x54, 0x47, 0, 0, 0, 1, 0x41] [7])
          (([7] : List Byte).length + 4) (be32 10)) = .ok [0x41]
      ∧ revealData (replaceAt (hideData [0x44, 0x53, 0x54, 0x47, 0, 0, 0, 1, 0x41] [7])
          (([7] : List Byte).length + 4) (be32 10))
          ≠ .error (.exception .invalidDataSize) := by
  have h : revealData (replaceAt (hideData [0x44, 0x53, 0x54, 0x47, 0, 0, 0, 1, 0x41] [7])
      (([7] : List Byte).length + 4) (be32 10)) = .ok [0x41] := by rfl
  refine ⟨by decide, by decide, by decide, h, ?_⟩
  rw [h]
  intro hc
  cases hc

/-- C10, amended (tamper detection, trailer length). For every non-empty carrier C and
payload P, after the four length bytes of the appended frame are replaced by the
big-endian encoding of a value L with `len(P) < L < 2^32`, `revealData` fails with
"Invalid data size detected" provided no offset after the frame's start that the
backward scan examines (`len(C) < q <= len(C) + len(P)`) holds the four signature
bytes. -/
theorem tamper_length_detected (P C : List Byte) (L : Nat) (hC : C ≠ [])
    (hL : P.length < L) (hL32 : L < 2 ^ 32) (hsize : C.length + 8 + P.length ≤ MAX_SIZE)
    (hno : ∀ q, C.length < q → q ≤ C.length + P.length →
      ¬ SigAt (replaceAt (hideData P C) (C.length + 4) (be32 L)) q) :
    revealData (replaceAt (hideData P C) (C.length + 4) (be32 L))
      = .error (.exception .invalidDataSize) := by
  rw [replaceAt_length_field] at hno ⊢
  rw [revealData_frame C P L hC hL32 (by rw [length_frame]; exact hsize) hno,
    if_pos (Or.inr hL)]

/-- Instance of the amended C10: the length field of a one-byte payload is set to 2. -/
theorem tamper_length_detected_witness :
    ([7] : List Byte) ≠ [] ∧ [(0x41 : Byte)].length < 2 ∧ 2 < 2 ^ 32
      ∧ ([7] : List Byte).length + 8 + [(0x41 : Byte)].length ≤ MAX_SIZE
      ∧ (∀ q, ([7] : List Byte).length < q →
          q ≤ ([7] : List Byte).length + [(0x41 : Byte)].length →
          ¬ SigAt (replaceAt (hideData [0x41] [7]) (([7] : List Byte).length + 4) (be32 2)) q)
      ∧ revealData (replaceAt (hideData [0x41] [7]) (([7] : List Byte).length + 4) (be32 2))
          = .error (.exception .invalidDataSize) := by
  have hno : ∀ q, ([7] : List Byte).length < q →
      q ≤ ([7] : List Byte).length + [(0x41 : Byte)].length →
      ¬ SigAt (replaceAt (hideData [0x41] [7]) (([7] : List Byte).length + 4) (be32 2)) q := by
    intro q h1 h2
    have hq : q = 2 := by simp at h1 h2; omega
    subst hq
    decide
  exact ⟨by decide, by decide, by decide, by decide, hno,
    tamper_length_detected [0x41] [7] 2 (by decide) (by decide) (by decide) (by decide) hno⟩

end DocumentSteganography

/-! ## Lemmas on the bitmap codec -/

namespace ImageSteganography

theorem size_mod_eq : SIZE_MOD = 18446744073709551616 := by norm_num [SIZE_MOD]

theorem max_size_eq : MAX_SIZE = 9223372036854775807 := by norm_num [MAX_SIZE]

set_option maxRecDepth 100000 in
theorem extractBit_embedBit : ∀ (c : Byte) (b : Fin 2), extractBit (embedBit c b.val) = b.val := by
  decide

theorem extractBit_embedBit_of_lt (c : Byte) (b : Nat) (hb : b < 2) :
    extractBit (embedBit c b) = b :=
  extractBit_embedBit c ⟨b, hb⟩

theorem bitsMSB_length (w x : Nat) : (bitsMSB w x).length = w := by
  simp [bitsMSB, downFrom]

theorem bitsMSB_lt (w x : Nat) : ∀ b ∈ bitsMSB w x, b < 2 := by
  intro b hb
  simp only [bitsMSB, List.mem_map] at hb
  obtain ⟨i, _, rfl⟩ := hb
  rw [Nat.and_one_is_mod]
  omega

theorem frameBits_length (data : List Byte) : (frameBits data).length = 64 + 8 * data.length := by
  have h : ∀ l : List Byte, (l.flatMap (fun byte => bitsMSB 8 byte.val)).length = 8 * l.length := by
    intro l
    induction l with
    | nil => rfl
    | cons a l ih =>
      rw [List.flatMap_cons, List.length_append, ih, bitsMSB_length, List.length_cons]
      omega
  rw [frameBits, List.length_append, List.length_append, bitsMSB_length, bitsMSB_length, h]
  omega

theorem frameBits_lt (data : List Byte) : ∀ b ∈ frameBits data, b < 2 := by
  intro b hb
  simp only [frameBits, List.mem_append, List.mem_flatMap] at hb
  rcases hb with h | h | ⟨a, _, h⟩
  · exact bitsMSB_lt _ _ b h
  · exact bitsMSB_lt _ _ b h
  · exact bitsMSB_lt _ _ b h

/-- Writing a list of bits with `embedStep` into a segment that lies inside the image. -/
theorem foldlM_embedStep (off : Nat) :
    ∀ (bits : List Nat) (seg pre post : List Byte) (k : Nat),
      seg.length = bits.length → pre.length = off + k →
      (pre ++ (seg ++ post)).length < SIZE_MOD →
      bits.foldlM (embedStep off) (pre ++ (seg ++ post), k)
        = .ok (pre ++ (List.zipWith embedBit seg bits ++ post), k + bits.length)
  | [], seg, pre, post, k, hseg, _, _ => by
    have : seg = [] := List.length_eq_zero.mp hseg
    subst this
    rfl
  | b :: bits, [], pre, post, k, hseg, _, _ => by simp at hseg
  | b :: bits, c :: seg, pre, post, k, hseg, hpre, hlen => by
    have hlen2 : pre.length + (seg.length + 1 + post.length) < SIZE_MOD := by
      simp only [List.length_append, List.length_cons] at hlen
      omega
    have e : (off + k) % SIZE_MOD = pre.length := by
      rw [← hpre]; exact Nat.mod_eq_of_lt (by omega)
    have e1 : (k + 1) % SIZE_MOD = k + 1 := Nat.mod_eq_of_lt (by omega)
    have hg : vecGet (pre ++ (c :: seg ++ post)) pre.length = .ok c := by
      apply vecGet_of_getElem?
      rw [List.getElem?_append_right (le_refl _), Nat.sub_self]
      simp
    have hset : (pre ++ (c :: seg ++ post)).set pre.length (embedBit c b)
        = (pre ++ [embedBit c b]) ++ (seg ++ post) := by
      rw [List.set_append_right _ _ (le_refl _), Nat.sub_self]
      simp
    have ih := foldlM_embedStep off bits seg (pre ++ [embedBit c b]) post (k + 1)
      (by simpa using hseg) (by simp [hpre]; omega)
      (by simp only [List.length_append, List.length_cons, List.length_nil]; omega)
    rw [List.foldlM_cons]
    simp only [embedStep, e, e1, hg, bind, Except.bind, pure, Except.pure, hset]
    rw [ih]
    simp only [List.append_assoc, List.singleton_append, List.zipWith_cons_cons,
      List.cons_append, List.length_cons]
    refine congrArg Except.ok (Prod.ext rfl ?_)
    simp only []
    omega

/-- The first write of a run that starts outside the image is out of bounds. -/
theorem foldlM_embedStep_outOfBounds (off : Nat) (image : List Byte) (b : Nat)
    (bits : List Nat) (hoff : off < SIZE_MOD) (h : image.length ≤ off) :
    (b :: bits).foldlM (embedStep off) (image, 0) = .error .outOfBounds := by
  have e : (off + 0) % SIZE_MOD = off := Nat.mod_eq_of_lt (by omega)
  rw [List.foldlM_cons]
  simp only [embedStep, e, vecGet_of_le h, bind, Except.bind]

/-- The three embedding loops of `hideData` write the bits of `frameBits` in order. -/
theorem embed_loops_eq {β : Type} (off : Nat) (data : List Byte) (st : List Byte × Nat)
    (κ : List Byte × Nat → Except Failure β) :
    ((downFrom 32).foldlM (fun st i => embedStep off st ((SIGNATURE >>> i) &&& 1)) st
      >>= fun st => (downFrom 32).foldlM
        (fun st i => embedStep off st (((data.length % UINT32_MOD) >>> i) &&& 1)) st
      >>= fun st => data.foldlM
        (fun st byte => (downFrom 8).foldlM
          (fun st i => embedStep off st ((byte.val >>> i) &&& 1)) st) st
      >>= κ)
      = (frameBits data).foldlM (embedStep off) st >>= κ := by
  have hmap : ∀ (w x : Nat) (s : List Byte × Nat),
      (downFrom w).foldlM (fun st i => embedStep off st ((x >>> i) &&& 1)) s
        = (bitsMSB w x).foldlM (embedStep off) s := by
    intro w x s
    rw [bitsMSB, List.foldlM_map]
  have hdata : ∀ (l : List Byte) (s : List Byte × Nat),
      l.foldlM (fun st byte => (downFrom 8).foldlM
          (fun st i => embedStep off st ((byte.val >>> i) &&& 1)) st) s
        = (l.flatMap (fun byte => bitsMSB 8 byte.val)).foldlM (embedStep off) s := by
    intro l
    induction l with
    | nil => intro s; rfl
    | cons a l ih =>
      intro s
      rw [List.foldlM_cons, List.flatMap_cons, List.foldlM_append, hmap]
      exact bind_congr (fun s2 => ih s2)
  rw [frameBits, List.foldlM_append, hmap, bind_assoc]
  refine bind_congr (fun s1 => ?_)
  rw [List.foldlM_append, hmap, bind_assoc]
  refine bind_congr (fun s2 => ?_)
  rw [hdata]

theorem intToSizeT_lt (v : Int) : intToSizeT v < SIZE_MOD := by
  have h1 : 0 ≤ v % (2 ^ 64 : Int) := Int.emod_nonneg _ (by norm_num)
  have h2 : v % (2 ^ 64 : Int) < 2 ^ 64 := Int.emod_lt_of_pos _ (by norm_num)
  rw [intToSizeT, size_mod_eq]
  omega

theorem getPixelDataOffset_lt {image : List Byte} {off : Nat}
    (h : getPixelDataOffset image = .ok off) : off < SIZE_MOD := by
  unfold getPixelDataOffset at h
  simp only [bind, Except.bind, pure, Except.pure] at h
  split at h
  · cases h
  · split at h
    · cases h
    · split at h
      · cases h
      · split at h
        · cases h
        · cases h
          exact intToSizeT_lt _

theorem hideData_invalid (data image : List Byte) (h : isValidBMP image = false) :
    hideData data image = .error (.exception .invalidContainerHide) := by
  simp [hideData, h, throw, throwThe, MonadExceptOf.throw]
  rfl

/-- After the structural check, `hideData` is the capacity check followed by the bit
writes. -/
theorem hideData_valid (data image : List Byte) (off : Nat) (hv : isValidBMP image = true)
    (ho : getPixelDataOffset image = .ok off) :
    hideData data image
      = if (data.length + 4 + 4) % SIZE_MOD > ((image.length + SIZE_MOD - off) % SIZE_MOD) / 8
        then .error (.exception (.capacity ((data.length + 4 + 4) % SIZE_MOD)
          (((image.length + SIZE_MOD - off) % SIZE_MOD) / 8)))
        else (frameBits data).foldlM (embedStep off) (image, 0) >>= fun st => pure st.1 := by
  unfold hideData
  rw [hv, ho, show (Except.ok off : Except Failure Nat) = pure off from rfl]
  simp only [Bool.not_true, Bool.false_eq_true, ↓reduceIte, pure_bind]
  by_cases hc : (data.length + 4 + 4) % SIZE_MOD
      > ((image.length + SIZE_MOD - off) % SIZE_MOD) / 8
  · rw [if_pos hc, if_pos hc]
    rfl
  · rw [if_neg hc, if_neg hc]
    exact embed_loops_eq off data (image, 0) _

theorem capacity_check_iff (data image : List Byte) (off : Nat) (hoff : off ≤ image.length)
    (hI : image.length ≤ MAX_SIZE) (hD : data.length ≤ MAX_SIZE) :
    ((data.length + 4 + 4) % SIZE_MOD > ((image.length + SIZE_MOD - off) % SIZE_MOD) / 8)
      ↔ ¬ ((4 + 4 + data.length) * 8 ≤ image.length - off) := by
  rw [size_mod_eq]
  rw [max_size_eq] at hI hD
  omega

theorem capacity_values (data image : List Byte) (off : Nat) (hoff : off ≤ image.length)
    (hI : image.length ≤ MAX_SIZE) (hD : data.length ≤ MAX_SIZE) :
    (data.length + 4 + 4) % SIZE_MOD = data.length + 8
      ∧ ((image.length + SIZE_MOD - off) % SIZE_MOD) / 8 = (image.length - off) / 8 := by
  rw [size_mod_eq]
  rw [max_size_eq] at hI hD
  omega

theorem embedded_length (data image : List Byte) (off : Nat)
    (h : off + (64 + 8 * data.length) ≤ image.length) :
    (embedded data image off).length = image.length := by
  simp only [embedded, List.length_append, List.length_take, List.length_drop,
    List.length_zipWith, frameBits_length]
  omega

/-- When the frame fits, `hideData` returns `embedded`. -/
theorem hideData_ok (data image : List Byte) (off : Nat) (hv : isValidBMP image = true)
    (ho : getPixelDataOffset image = .ok off) (hoff : off ≤ image.length)
    (hI : image.length ≤ MAX_SIZE) (hD : data.length ≤ MAX_SIZE)
    (hfit : (4 + 4 + data.length) * 8 ≤ image.length - off) :
    hideData data image = .ok (embedded data image off) := by
  have hc := capacity_check_iff data image off hoff hI hD
  rw [hideData_valid data image off hv ho, if_neg (fun h => (hc.mp h) hfit)]
  have hsplit : image = image.take off
      ++ ((image.drop off).take (64 + 8 * data.length)
        ++ image.drop (off + (64 + 8 * data.length))) := by
    rw [← List.drop_drop, List.take_append_drop, List.take_append_drop]
  have hfold := foldlM_embedStep off (frameBits data)
    ((image.drop off).take (64 + 8 * data.length)) (image.take off)
    (image.drop (off + (64 + 8 * data.length))) 0
    (by rw [frameBits_length, List.length_take, List.length_drop]; omega)
    (by rw [List.length_take]; omega)
    (by rw [← hsplit, size_mod_eq]; rw [max_size_eq] at hI; omega)
  rw [← hsplit] at hfold
  rw [hfold]
  rfl

/-- When the raster offset lies at or beyond the end of the image and the capacity
check passes, the first write is out of bounds. -/
theorem hideData_outOfBounds (data image : List Byte) (off : Nat) (hv : isValidBMP image = true)
    (ho : getPixelDataOffset image = .ok off) (hoff : image.length ≤ off)
    (hcap : ¬ ((data.length + 4 + 4) % SIZE_MOD
      > ((image.length + SIZE_MOD - off) % SIZE_MOD) / 8)) :
    hideData data image = .error .outOfBounds := by
  rw [hideData_valid data image off hv ho, if_neg hcap]
  match hb : frameBits data with
  | [] =>
    have := frameBits_length data
    rw [hb] at this
    simp only [List.length_nil] at this
    omega
  | b :: bits =>
    rw [foldlM_embedStep_outOfBounds off image b bits (getPixelDataOffset_lt ho) hoff]
    rfl

/-- Every successful run of `hideData` is a run in which the frame fits. -/
theorem hideData_ok_inv (data image out : List Byte) (off : Nat)
    (ho : getPixelDataOffset image = .ok off) (hI : image.length ≤ MAX_SIZE)
    (hD : data.length ≤ MAX_SIZE) (h : hideData data image = .ok out) :
    isValidBMP image = true ∧ off < image.length
      ∧ (4 + 4 + data.length) * 8 ≤ image.length - off ∧ out = embedded data image off := by
  have hv : isValidBMP image = true := by
    by_contra hv
    rw [hideData_invalid data image (by simpa using hv)] at h
    cases h
  have hcap : ¬ ((data.length + 4 + 4) % SIZE_MOD
      > ((image.length + SIZE_MOD - off) % SIZE_MOD) / 8) := by
    intro hc
    rw [hideData_valid data image off hv ho, if_pos hc] at h
    cases h
  have hoff : off < image.length := by
    by_contra hoff
    rw [hideData_outOfBounds data image off hv ho (by omega) hcap] at h
    cases h
  have hfit : (4 + 4 + data.length) * 8 ≤ image.length - off := by
    by_contra hfit
    exact hcap ((capacity_check_iff data image off (le_of_lt hoff) hI hD).mpr hfit)
  refine ⟨hv, hoff, hfit, ?_⟩
  rw [hideData_ok data image off hv ho (le_of_lt hoff) hI hD hfit] at h
  cases h
  rfl

/-! ### Extraction -/

theorem value32_eq (seg : List Byte) : value32 seg = bitsValue32 (seg.map extractBit) := by
  rw [value32, bitsValue32, List.foldl_map]

theorem value8_eq (seg : List Byte) : value8 seg = bitsValue8 (seg.map extractBit) := by
  rw [value8, bitsValue8, List.foldl_map]

/-- Reading `n` low bits into a `uint32_t`, all inside the image. -/
theorem iterateM_readStep32 (image : List Byte) (off : Nat) (hI : image.length ≤ MAX_SIZE) :
    ∀ (n k acc : Nat), off + k + n ≤ image.length →
      iterateM (readStep32 image off) n (acc, k)
        = .ok (((image.drop (off + k)).take n).foldl
            (fun a c => ((a <<< 1) % UINT32_MOD) ||| extractBit c) acc, k + n)
  | 0, k, acc, _ => by simp [iterateM]
  | n + 1, k, acc, h => by
    have hlt : off + k < image.length := by omega
    have e : (off + k) % SIZE_MOD = off + k :=
      Nat.mod_eq_of_lt (by rw [size_mod_eq]; rw [max_size_eq] at hI; omega)
    have e1 : (k + 1) % SIZE_MOD = k + 1 :=
      Nat.mod_eq_of_lt (by rw [size_mod_eq]; rw [max_size_eq] at hI; omega)
    have hg : vecGet image (off + k) = .ok image[off + k] :=
      vecGet_of_getElem? (List.getElem?_eq_getElem hlt)
    have ih := iterateM_readStep32 image off hI n (k + 1)
      (((acc <<< 1) % UINT32_MOD) ||| extractBit image[off + k]) (by omega)
    rw [iterateM]
    simp only [readStep32, e, e1, hg, bind, Except.bind, pure, Except.pure]
    rw [ih, List.drop_eq_getElem_cons hlt, List.take_succ_cons, List.foldl_cons]
    refine congrArg Except.ok (Prod.ext rfl ?_)
    simp only []
    omega

/-- Reading `n` low bits into an `unsigned char`, all inside the image. -/
theorem iterateM_readStep8 (image : List Byte) (off : Nat) (hI : image.length ≤ MAX_SIZE) :
    ∀ (n k : Nat) (acc : Byte), off + k + n ≤ image.length →
      iterateM (readStep8 image off) n (acc, k)
        = .ok (((image.drop (off + k)).take n).foldl
            (fun (a : Byte) c => Fin.ofNat ((a.val <<< 1) ||| extractBit c)) acc, k + n)
  | 0, k, acc, _ => by simp [iterateM]
  | n + 1, k, acc, h => by
    have hlt : off + k < image.length := by omega
    have e : (off + k) % SIZE_MOD = off + k :=
      Nat.mod_eq_of_lt (by rw [size_mod_eq]; rw [max_size_eq] at hI; omega)
    have e1 : (k + 1) % SIZE_MOD = k + 1 :=
      Nat.mod_eq_of_lt (by rw [size_mod_eq]; rw [max_size_eq] at hI; omega)
    have hg : vecGet image (off + k) = .ok image[off + k] :=
      vecGet_of_getElem? (List.getElem?_eq_getElem hlt)
    have ih := iterateM_readStep8 image off hI n (k + 1)
      (Fin.ofNat ((acc.val <<< 1) ||| extractBit image[off + k])) (by omega)
    rw [iterateM]
    simp only [readStep8, e, e1, hg, bind, Except.bind, pure, Except.pure]
    rw [ih, List.drop_eq_getElem_cons hlt, List.take_succ_cons, List.foldl_cons]
    refine congrArg Except.ok (Prod.ext rfl ?_)
    simp only []
    omega

/-- The first `m` rounds of the payload loop of `revealData`, all reads inside the
image. -/
theorem payload_loop (image : List Byte) (off k0 n : Nat) (hI : image.length ≤ MAX_SIZE) :
    ∀ m, m ≤ n → off + k0 + 8 * m ≤ image.length →
      (List.range m).foldlM
        (fun (st : List Byte × Nat) i => do
          let (byte, bitIndex) ← iterateM (readStep8 image off) 8 (0, st.2)
          pure (st.1.set i byte, bitIndex))
        (List.replicate n 0, k0)
      = .ok ((List.range m).map (fun i => value8 ((image.drop (off + k0 + 8 * i)).take 8))
          ++ List.replicate (n - m) 0, k0 + 8 * m)
  | 0, _, _ => by simp [pure, Except.pure]
  | m + 1, hm, h => by
    have ih := payload_loop image off k0 n hI m (by omega) (by omega)
    have hrep : List.replicate (n - m) (0 : Byte) = 0 :: List.replicate (n - (m + 1)) 0 := by
      have : n - m = (n - (m + 1)) + 1 := by omega
      rw [this, List.replicate_succ]
    have hread := iterateM_readStep8 image off hI 8 (k0 + 8 * m) 0 (by omega)
    rw [List.range_succ, List.foldlM_append, ih]
    simp only [bind, Except.bind, List.foldlM_cons, List.foldlM_nil, hread, pure, Except.pure]
    rw [List.set_append_right _ _ (by simp), List.length_map, List.length_range, Nat.sub_self,
      hrep, List.set_cons_zero, List.map_append, List.append_assoc]
    refine congrArg Except.ok (Prod.ext ?_ ?_)
    · simp only [List.map_cons, List.map_nil, List.singleton_append, value8, Nat.add_assoc]
    · simp only []
      omega

/-- Reading `n` low bits into an `unsigned char` when the image ends before the last of
them: the run leaves the vector. -/
theorem iterateM_readStep8_outOfBounds (image : List Byte) (off : Nat)
    (hI : image.length ≤ MAX_SIZE) :
    ∀ (n k : Nat) (acc : Byte), off + k ≤ image.length → image.length < off + k + n →
      iterateM (readStep8 image off) n (acc, k) = .error .outOfBounds
  | 0, k, acc, h1, h2 => by omega
  | n + 1, k, acc, h1, h2 => by
    have e : (off + k) % SIZE_MOD = off + k :=
      Nat.mod_eq_of_lt (by rw [size_mod_eq]; rw [max_size_eq] at hI; omega)
    have e1 : (k + 1) % SIZE_MOD = k + 1 :=
      Nat.mod_eq_of_lt (by rw [size_mod_eq]; rw [max_size_eq] at hI; omega)
    rw [iterateM]
    by_cases hlt : off + k < image.length
    · have hg : vecGet image (off + k) = .ok image[off + k] :=
        vecGet_of_getElem? (List.getElem?_eq_getElem hlt)
      have ih := iterateM_readStep8_outOfBounds image off hI n (k + 1)
        (Fin.ofNat ((acc.val <<< 1) ||| extractBit image[off + k])) (by omega) (by omega)
      simp only [readStep8, e, e1, hg, bind, Except.bind, pure, Except.pure]
      exact ih
    · simp only [readStep8, e, vecGet_of_le (Nat.le_of_not_lt hlt), bind, Except.bind]

/-- The payload loop of `revealData` when the declared length needs raster bytes beyond
the end of the image: the run leaves the vector. -/
theorem payload_loop_outOfBounds (image : List Byte) (off k0 n : Nat)
    (hI : image.length ≤ MAX_SIZE) (h1 : off + k0 ≤ image.length)
    (h2 : image.length < off + k0 + 8 * n) :
    (List.range n).foldlM
      (fun (st : List Byte × Nat) i => do
        let (byte, bitIndex) ← iterateM (readStep8 image off) 8 (0, st.2)
        pure (st.1.set i byte, bitIndex))
      (List.replicate n 0, k0)
    = .error .outOfBounds := by
  obtain ⟨m, d, hn, hm1, hm2⟩ : ∃ m d, n = m + (d + 1)
      ∧ off + k0 + 8 * m ≤ image.length ∧ image.length < off + k0 + 8 * m + 8 := by
    refine ⟨(image.length - off - k0) / 8, n - (image.length - off - k0) / 8 - 1, ?_, ?_, ?_⟩
      <;> omega
  have hloop := payload_loop image off k0 n hI m (by omega) hm1
  have hbad := iterateM_readStep8_outOfBounds image off hI 8 (k0 + 8 * m) 0 (by omega)
    (by omega)
  have hr : List.range n = List.range m ++ (m + 0) :: ((List.range d).map Nat.succ).map (m + ·) := by
    rw [hn, List.range_add, List.range_succ_eq_map, List.map_cons]
  rw [hr, List.foldlM_append, hloop]
  simp only [bind, Except.bind, List.foldlM_cons, hbad]

/-- With the signature and length fields inside the image, `revealData` is the two
checks followed by the payload loop. -/
theorem revealData_valid (image : List Byte) (off : Nat) (hv : isValidBMP image = true)
    (ho : getPixelDataOffset image = .ok off) (hI : image.length ≤ MAX_SIZE)
    (h64 : off + 64 ≤ image.length) :
    revealData image
      = if value32 ((image.drop off).take 32) ≠ SIGNATURE then
          .error (.exception .noHiddenDataImage)
        else if value32 ((image.drop (off + 32)).take 32) = 0
            ∨ value32 ((image.drop (off + 32)).take 32) > image.length then
          .error (.exception .invalidDataSize)
        else
          (List.range (value32 ((image.drop (off + 32)).take 32))).foldlM
            (fun (st : List Byte × Nat) i => do
              let (byte, bitIndex) ← iterateM (readStep8 image off) 8 (0, st.2)
              pure (st.1.set i byte, bitIndex))
            (List.replicate (value32 ((image.drop (off + 32)).take 32)) 0, 64)
          >>= fun st => pure st.1 := by
  have hs := iterateM_readStep32 image off hI 32 0 0 (by omega)
  have hl := iterateM_readStep32 image off hI 32 32 0 (by omega)
  rw [Nat.add_zero, Nat.zero_add] at hs
  unfold revealData
  rw [hv, ho, show (Except.ok off : Except Failure Nat) = pure off from rfl]
  simp only [Bool.not_true, Bool.false_eq_true, ↓reduceIte, pure_bind]
  rw [hs, show ∀ (x : Nat × Nat), (Except.ok x : Except Failure (Nat × Nat)) = pure x
    from fun _ => rfl, pure_bind]
  simp only []
  rw [hl, show ∀ (x : Nat × Nat), (Except.ok x : Except Failure (Nat × Nat)) = pure x
    from fun _ => rfl, pure_bind]
  simp only []
  rw [← value32, ← value32]
  by_cases h1 : value32 ((image.drop off).take 32) ≠ SIGNATURE
  · rw [if_pos h1, if_pos h1]; rfl
  · rw [if_neg h1, if_neg h1]
    by_cases h2 : value32 ((image.drop (off + 32)).take 32) = 0
        ∨ value32 ((image.drop (off + 32)).take 32) > image.length
    · rw [if_pos h2, if_pos h2]; rfl
    · rw [if_neg h2, if_neg h2]

/-- Extraction when signature and length fields are good and the payload bits lie
inside the image. -/
theorem revealData_ok (image : List Byte) (off L : Nat) (hv : isValidBMP image = true)
    (ho : getPixelDataOffset image = .ok off) (hI : image.length ≤ MAX_SIZE)
    (hsig : value32 ((image.drop off).take 32) = SIGNATURE)
    (hlen : value32 ((image.drop (off + 32)).take 32) = L) (hL : L ≠ 0)
    (hfit : off + 64 + 8 * L ≤ image.length) :
    revealData image
      = .ok ((List.range L).map (fun i => value8 ((image.drop (off + 64 + 8 * i)).take 8))) := by
  rw [revealData_valid image off hv ho hI (by omega), if_neg (by rw [hsig]; simp), hlen,
    if_neg (by omega)]
  have hloop := payload_loop image off 64 L hI L (le_refl _) hfit
  rw [hloop]
  simp [bind, Except.bind, pure, Except.pure]

theorem bitsMSB_succ (w x : Nat) : bitsMSB (w + 1) x = ((x >>> w) &&& 1) :: bitsMSB w x := by
  simp [bitsMSB, downFrom, List.range_succ]

theorem foldl_bitsMSB (x : Nat) :
    ∀ (w acc : Nat), acc * 2 ^ w + x % 2 ^ w < 2 ^ 32 →
      (bitsMSB w x).foldl (fun a b => ((a <<< 1) % UINT32_MOD) ||| b) acc
        = acc * 2 ^ w + x % 2 ^ w
  | 0, acc, _ => by simp [bitsMSB, downFrom, Nat.mod_one]
  | w + 1, acc, h => by
    have hp : 0 < 2 ^ w := Nat.pow_pos (by decide)
    have hmod : x % 2 ^ (w + 1) = x % 2 ^ w + 2 ^ w * (x / 2 ^ w % 2) := Nat.mod_pow_succ
    have hpow : 2 ^ (w + 1) = 2 * 2 ^ w := by rw [pow_succ]; ring
    have hb : x / 2 ^ w % 2 < 2 := Nat.mod_lt _ (by decide)
    have hacc : acc * 2 < 2 ^ 32 := by
      have : acc * 2 ≤ acc * 2 ^ (w + 1) := by
        rw [hpow]; nlinarith
      omega
    have hstep : ((acc <<< 1) % UINT32_MOD) ||| ((x >>> w) &&& 1) = acc * 2 + x / 2 ^ w % 2 := by
      rw [Nat.and_one_is_mod, Nat.shiftRight_eq_div_pow]
      have h1 : (acc <<< 1) % UINT32_MOD = acc <<< 1 := by
        rw [Nat.shiftLeft_eq]; exact Nat.mod_eq_of_lt (by simpa [UINT32_MOD] using hacc)
      rw [h1, shl_or_eq acc _ 1 (by simpa using hb)]
      norm_num
    have hkey : (acc * 2 + x / 2 ^ w % 2) * 2 ^ w + x % 2 ^ w
        = acc * 2 ^ (w + 1) + x % 2 ^ (w + 1) := by
      rw [hmod, hpow]; ring
    rw [bitsMSB_succ, List.foldl_cons, hstep,
      foldl_bitsMSB x w (acc * 2 + x / 2 ^ w % 2) (by rw [hkey]; exact h), hkey]

theorem bitsValue32_bitsMSB (x : Nat) : bitsValue32 (bitsMSB 32 x) = x % 2 ^ 32 := by
  have h := foldl_bitsMSB x 32 0 (by
    have : x % 2 ^ 32 < 2 ^ 32 := Nat.mod_lt _ (by norm_num)
    omega)
  rw [bitsValue32, h]
  omega

set_option maxRecDepth 100000 in
theorem bitsValue8_bitsMSB : ∀ b : Byte, bitsValue8 (bitsMSB 8 b.val) = b := by
  decide

theorem map_extractBit_zipWith :
    ∀ (seg : List Byte) (bits : List Nat), seg.length = bits.length → (∀ b ∈ bits, b < 2) →
      (List.zipWith embedBit seg bits).map extractBit = bits
  | [], [], _, _ => rfl
  | [], _ :: _, h, _ => by simp at h
  | _ :: _, [], h, _ => by simp at h
  | c :: seg, b :: bits, h, hb => by
    rw [List.zipWith_cons_cons, List.map_cons,
      extractBit_embedBit_of_lt c b (hb b (List.mem_cons_self _ _)),
      map_extractBit_zipWith seg bits (by simpa using h)
        (fun x hx => hb x (List.mem_cons_of_mem _ hx))]

/-- A window taken at `off + a` is a window of the first `N` bytes from `off`. -/
theorem window_eq (E : List Byte) (off a b N : Nat) (h : a + b ≤ N) :
    (E.drop (off + a)).take b = (((E.drop off).take N).drop a).take b := by
  rw [List.drop_take, List.take_take, List.drop_drop, Nat.min_eq_left (by omega)]

theorem flatMap_chunk (g : Byte → List Nat) (hg : ∀ x, (g x).length = 8) :
    ∀ (l : List Byte) (i : Nat) (h : i < l.length),
      ((l.flatMap g).drop (8 * i)).take 8 = g l[i]
  | [], i, h => by simp at h
  | x :: l, 0, _ => by
    rw [List.flatMap_cons, Nat.mul_zero, List.drop_zero, List.take_left' (hg x)]
    rfl
  | x :: l, i + 1, h => by
    have e : 8 * (i + 1) = (g x).length + 8 * i := by rw [hg]; omega
    rw [List.flatMap_cons, e, List.drop_append,
      flatMap_chunk g hg l i (by simpa using h)]
    rfl

theorem frameBits_signature (data : List Byte) :
    ((frameBits data).drop 0).take 32 = bitsMSB 32 SIGNATURE := by
  rw [List.drop_zero, frameBits, List.take_left' (bitsMSB_length _ _)]

theorem frameBits_size (data : List Byte) :
    ((frameBits data).drop 32).take 32 = bitsMSB 32 (data.length % UINT32_MOD) := by
  rw [frameBits, List.drop_left' (bitsMSB_length _ _), List.take_left' (bitsMSB_length _ _)]

theorem frameBits_byte (data : List Byte) (i : Nat) (h : i < data.length) :
    ((frameBits data).drop (64 + 8 * i)).take 8 = bitsMSB 8 data[i].val := by
  have e : 64 + 8 * i = (bitsMSB 32 SIGNATURE).length
      + ((bitsMSB 32 (data.length % UINT32_MOD)).length + 8 * i) := by
    rw [bitsMSB_length, bitsMSB_length]; omega
  rw [frameBits, e, List.drop_append, List.drop_append,
    flatMap_chunk (fun byte => bitsMSB 8 byte.val) (fun _ => bitsMSB_length _ _) data i h]

/-- The low bits of the raster bytes of `embedded` spell the frame. -/
theorem embedded_lowBits (data image : List Byte) (off : Nat)
    (h : off + (64 + 8 * data.length) ≤ image.length) :
    (((embedded data image off).drop off).take (64 + 8 * data.length)).map extractBit
      = frameBits data := by
  have hpre : (image.take off).length = off := by rw [List.length_take]; omega
  have hseg : ((image.drop off).take (64 + 8 * data.length)).length = 64 + 8 * data.length := by
    rw [List.length_take, List.length_drop]; omega
  have hz : (List.zipWith embedBit ((image.drop off).take (64 + 8 * data.length))
      (frameBits data)).length = 64 + 8 * data.length := by
    rw [List.length_zipWith, hseg, frameBits_length]; simp
  rw [embedded, List.drop_left' hpre, List.take_left' hz,
    map_extractBit_zipWith _ _ (by rw [hseg, frameBits_length]) (frameBits_lt data)]

theorem embedded_window (data image : List Byte) (off a b : Nat)
    (h : off + (64 + 8 * data.length) ≤ image.length) (hab : a + b ≤ 64 + 8 * data.length) :
    (((embedded data image off).drop (off + a)).take b).map extractBit
      = ((frameBits data).drop a).take b := by
  rw [window_eq _ off a b _ hab, List.map_take, List.map_drop, embedded_lowBits data image off h]

theorem embedded_getElem? (data image : List Byte) (off i : Nat) (hi : i < off)
    (h : off ≤ image.length) :
    (embedded data image off)[i]? = image[i]? := by
  rw [embedded, List.getElem?_append_left (by rw [List.length_take]; omega),
    List.getElem?_take_of_lt hi]

/-- The structural check and the raster offset depend only on the length and on the
first 14 bytes. -/
theorem header_congr (A B : List Byte) (hl : A.length = B.length)
    (h : ∀ i, i < 14 → A[i]? = B[i]?) :
    isValidBMP A = isValidBMP B ∧ getPixelDataOffset A = getPixelDataOffset B := by
  unfold isValidBMP getPixelDataOffset vecGet
  rw [hl, h 0 (by decide), h 1 (by decide), h 10 (by decide), h 11 (by decide),
    h 12 (by decide), h 13 (by decide)]
  exact ⟨rfl, rfl⟩

theorem range_map_eq (P : List Byte) (f : Nat → Byte)
    (h : ∀ i (hi : i < P.length), f i = P[i]) : (List.range P.length).map f = P := by
  apply List.ext_getElem
  · simp
  · intro i h1 h2
    rw [List.getElem_map, List.getElem_range]
    exact h i h2

/-- Extraction from `embedded` returns the payload. -/
theorem revealData_embedded (P C : List Byte) (off : Nat) (hv : isValidBMP C = true)
    (ho : getPixelDataOffset C = .ok off) (h14 : 14 ≤ off) (hC : C.length ≤ MAX_SIZE)
    (hP0 : 0 < P.length) (hP : P.length < 2 ^ 32)
    (hfit : off + (64 + 8 * P.length) ≤ C.length) :
    revealData (embedded P C off) = .ok P := by
  have hlen := embedded_length P C off hfit
  have hhead := header_congr (embedded P C off) C hlen
    (fun i hi => embedded_getElem? P C off i (by omega) (by omega))
  have hsig : value32 (((embedded P C off).drop off).take 32) = SIGNATURE := by
    have := embedded_window P C off 0 32 hfit (by omega)
    rw [Nat.add_zero] at this
    rw [value32_eq, this, frameBits_signature, bitsValue32_bitsMSB]
    rfl
  have hsize : value32 (((embedded P C off).drop (off + 32)).take 32) = P.length := by
    rw [value32_eq, embedded_window P C off 32 32 hfit (by omega), frameBits_size,
      bitsValue32_bitsMSB, UINT32_MOD, Nat.mod_mod, Nat.mod_eq_of_lt hP]
  rw [revealData_ok (embedded P C off) off P.length (hhead.1.trans hv) (hhead.2.trans ho)
    (by rw [hlen]; exact hC) hsig hsize (by omega) (by rw [hlen]; omega)]
  refine congrArg Except.ok (range_map_eq P _ ?_)
  intro i hi
  have := embedded_window P C off (64 + 8 * i) 8 hfit (by omega)
  rw [← Nat.add_assoc] at this
  rw [value8_eq, this, frameBits_byte P i hi, bitsValue8_bitsMSB]

/-- Extraction when signature and length fields are good, the declared length passes
the check `dataSize > image.size()`, and the payload bits do not all lie inside the
image: the run leaves the vector. -/
theorem revealData_outOfBounds (image : List Byte) (off L : Nat) (hv : isValidBMP image = true)
    (ho : getPixelDataOffset image = .ok off) (hI : image.length ≤ MAX_SIZE)
    (h64 : off + 64 ≤ image.length)
    (hsig : value32 ((image.drop off).take 32) = SIGNATURE)
    (hlen : value32 ((image.drop (off + 32)).take 32) = L)
    (hle : L ≤ image.length) (hover : image.length < off + 64 + 8 * L) :
    revealData image = .error .outOfBounds := by
  rw [revealData_valid image off hv ho hI h64, if_neg (by rw [hsig]; simp), hlen,
    if_neg (by omega), payload_loop_outOfBounds image off 64 L hI h64 hover]
  rfl

end ImageSteganography

/-! ## Properties of the bitmap codec -/

namespace ImageSteganography

/-- Header preservation for runs in which every write stays inside the vector: when
`hideData` returns `.ok out`, the output has the length of the carrier and every byte
at an index below the raster offset is the corresponding byte of the carrier. -/
theorem hideData_header_preserved (P C out : List Byte) (off : Nat)
    (hC : C.length ≤ MAX_SIZE) (hP : P.length ≤ MAX_SIZE)
    (ho : getPixelDataOffset C = .ok off) (h : hideData P C = .ok out) :
    out.length = C.length ∧ ∀ i, i < off → out[i]? = C[i]? := by
  obtain ⟨_, hoff, hfit, rfl⟩ := hideData_ok_inv P C out off ho hC hP h
  refine ⟨embedded_length P C off (by omega), ?_⟩
  intro i hi
  rw [embedded, List.getElem?_append_left (by rw [List.length_take]; omega),
    List.getElem?_take_of_lt hi]

/-- C5 (capacity boundary). For a carrier that passes the structural check and whose
raster offset is at most its length, `hideData` succeeds exactly when
`(4 + 4 + len(P)) * 8 <= len(C) - raster_offset`; otherwise it throws the capacity
exception reporting required and available bytes, in particular when one raster byte
is missing. -/
theorem capacity_boundary (P C : List Byte) (off : Nat) (hv : isValidBMP C = true)
    (ho : getPixelDataOffset C = .ok off) (hoff : off ≤ C.length)
    (hC : C.length ≤ MAX_SIZE) (hP : P.length ≤ MAX_SIZE) :
    ((∃ out, hideData P C = .ok out) ↔ (4 + 4 + P.length) * 8 ≤ C.length - off)
      ∧ (¬ ((4 + 4 + P.length) * 8 ≤ C.length - off) →
          hideData P C
            = .error (.exception (.capacity (P.length + 8) ((C.length - off) / 8))))
      ∧ (C.length - off = (4 + 4 + P.length) * 8 - 1 →
          hideData P C
            = .error (.exception (.capacity (P.length + 8) ((C.length - off) / 8)))) := by
  have hfail : ¬ ((4 + 4 + P.length) * 8 ≤ C.length - off) →
      hideData P C
        = .error (.exception (.capacity (P.length + 8) ((C.length - off) / 8))) := by
    intro hn
    have hv2 := capacity_values P C off hoff hC hP
    rw [hideData_valid P C off hv ho,
      if_pos ((capacity_check_iff P C off hoff hC hP).mpr hn), hv2.1, hv2.2]
  refine ⟨⟨?_, ?_⟩, hfail, ?_⟩
  · rintro ⟨out, h⟩
    exact (hideData_ok_inv P C out off ho hC hP h).2.2.1
  · intro hfit
    exact ⟨_, hideData_ok P C off hv ho hoff hC hP hfit⟩
  · intro h1
    exact hfail (by omega)

set_option maxRecDepth 1000000 in
/-- Counterexample to C1 as stated: with raster offset 1 the embedding overwrites the
low bit of the marker byte 'M', and extraction rejects the output as not a bitmap. -/
theorem bitmap_round_trip_counterexample :
    isValidBMP (sampleCarrier 1 72) = true
      ∧ getPixelDataOffset (sampleCarrier 1 72) = .ok 1
      ∧ 1 ≤ (sampleCarrier 1 72).length
      ∧ 0 < [(0x41 : Byte)].length ∧ [(0x41 : Byte)].length < 2 ^ 32
      ∧ [(0x41 : Byte)].length + 8 ≤ ((sampleCarrier 1 72).length - 1) / 8
      ∧ hideData [0x41] (sampleCarrier 1 72) = .ok (embedded [0x41] (sampleCarrier 1 72) 1)
      ∧ revealData (embedded [0x41] (sampleCarrier 1 72) 1)
          = .error (.exception .invalidContainerReveal) := by
  refine ⟨by decide, by rfl, by decide, by decide, by decide, by decide, by rfl, by rfl⟩

/-- C1, amended (bitmap round trip). For every carrier that passes the structural check
with `14 <= raster_offset <= len(C)` and every payload with `0 < len(P) < 2^32` whose
frame fits (`len(P) + 8 <= (len(C) - raster_offset) / 8`), `hideData` succeeds and
`revealData` applied to its output returns exactly the payload. -/
theorem bitmap_round_trip (P C : List Byte) (off : Nat) (hv : isValidBMP C = true)
    (ho : getPixelDataOffset C = .ok off) (h14 : 14 ≤ off) (hoff : off ≤ C.length)
    (hC : C.length ≤ MAX_SIZE) (hP0 : 0 < P.length) (hP : P.length < 2 ^ 32)
    (hfit : P.length + 8 ≤ (C.length - off) / 8) :
    ∃ out, hideData P C = .ok out ∧ revealData out = .ok P := by
  have hPmax : P.length ≤ MAX_SIZE := by rw [max_size_eq]; omega
  refine ⟨embedded P C off, hideData_ok P C off hv ho hoff hC hPmax (by omega), ?_⟩
  exact revealData_embedded P C off hv ho h14 hC hP0 hP (by omega)

set_option maxRecDepth 1000000 in
theorem sample_facts :
    isValidBMP (sampleCarrier 54 72) = true
      ∧ getPixelDataOffset (sampleCarrier 54 72) = .ok 54
      ∧ (sampleCarrier 54 72).length = 126
      ∧ hideData [0x41] (sampleCarrier 54 72) = .ok (embedded [0x41] (sampleCarrier 54 72) 54) := by
  refine ⟨by decide, by rfl, by decide, by rfl⟩

/-- Instance of the amended C1: one byte hidden in a carrier with 72 raster bytes. -/
theorem bitmap_round_trip_witness :
    isValidBMP (sampleCarrier 54 72) = true
      ∧ getPixelDataOffset (sampleCarrier 54 72) = .ok 54
      ∧ 14 ≤ 54 ∧ 54 ≤ (sampleCarrier 54 72).length
      ∧ (sampleCarrier 54 72).length ≤ MAX_SIZE
      ∧ 0 < [(0x41 : Byte)].length ∧ [(0x41 : Byte)].length < 2 ^ 32
      ∧ [(0x41 : Byte)].length + 8 ≤ ((sampleCarrier 54 72).length - 54) / 8
      ∧ ∃ out, hideData [0x41] (sampleCarrier 54 72) = .ok out
          ∧ revealData out = .ok [0x41] := by
  have hl := sample_facts.2.2.1
  have h1 : 54 ≤ (sampleCarrier 54 72).length := by rw [hl]; decide
  have h2 : (sampleCarrier 54 72).length ≤ MAX_SIZE := by rw [hl]; decide
  have h3 : [(0x41 : Byte)].length + 8 ≤ ((sampleCarrier 54 72).length - 54) / 8 := by
    rw [hl]; decide
  exact ⟨sample_facts.1, sample_facts.2.1, by decide, h1, h2, by decide, by decide, h3,
    bitmap_round_trip [0x41] (sampleCarrier 54 72) 54 sample_facts.1 sample_facts.2.1
      (by decide) h1 h2 (by decide) (by decide) h3⟩

/-- Instance of the header preservation: one byte hidden in a carrier with 72 raster
bytes. -/
theorem hideData_header_preserved_witness :
    (sampleCarrier 54 72).length ≤ MAX_SIZE ∧ [(0x41 : Byte)].length ≤ MAX_SIZE
      ∧ getPixelDataOffset (sampleCarrier 54 72) = .ok 54
      ∧ hideData [0x41] (sampleCarrier 54 72) = .ok (embedded [0x41] (sampleCarrier 54 72) 54)
      ∧ (embedded [0x41] (sampleCarrier 54 72) 54).length = (sampleCarrier 54 72).length
      ∧ ∀ i, i < 54 → (embedded [0x41] (sampleCarrier 54 72) 54)[i]? = (sampleCarrier 54 72)[i]? := by
  have hl := sample_facts.2.2.1
  have h2 : (sampleCarrier 54 72).length ≤ MAX_SIZE := by rw [hl]; decide
  exact ⟨h2, by decide, sample_facts.2.1, sample_facts.2.2.2,
    hideData_header_preserved [0x41] (sampleCarrier 54 72) _ 54 h2 (by decide)
      sample_facts.2.1 sample_facts.2.2.2⟩

/-- Instance of C5: a one-byte payload needs 72 raster bytes; the carrier has 72. -/
theorem capacity_boundary_witness :
    isValidBMP (sampleCarrier 54 72) = true
      ∧ getPixelDataOffset (sampleCarrier 54 72) = .ok 54
      ∧ 54 ≤ (sampleCarrier 54 72).length
      ∧ (sampleCarrier 54 72).length ≤ MAX_SIZE ∧ [(0x41 : Byte)].length ≤ MAX_SIZE
      ∧ ((∃ out, hideData [0x41] (sampleCarrier 54 72) = .ok out)
          ↔ (4 + 4 + [(0x41 : Byte)].length) * 8 ≤ (sampleCarrier 54 72).length - 54) := by
  have hl := sample_facts.2.2.1
  have h1 : 54 ≤ (sampleCarrier 54 72).length := by rw [hl]; decide
  have h2 : (sampleCarrier 54 72).length ≤ MAX_SIZE := by rw [hl]; decide
  exact ⟨sample_facts.1, sample_facts.2.1, h1, h2, by decide,
    (capacity_boundary [0x41] (sampleCarrier 54 72) 54 sample_facts.1 sample_facts.2.1 h1 h2
      (by decide)).1⟩

set_option maxRecDepth 100000 in
theorem extractBit_flipBit : ∀ c : Byte, extractBit (flipBit c 0) = 1 - extractBit c := by
  decide

set_option maxRecDepth 100000 in
theorem flipped_signature_value (t : Nat) (ht : t < 32) :
    bitsValue32 ((bitsMSB 32 SIGNATURE).set t (1 - (bitsMSB 32 SIGNATURE).getD t 0))
      ≠ SIGNATURE := by
  interval_cases t <;> decide

/-- After the low bit of one of the 32 signature-carrying raster bytes is flipped, the
signature read back differs from `SIGNATURE`. -/
theorem flipped_value32 (E : List Byte) (off t : Nat) (ht : t < 32)
    (hE : off + 32 ≤ E.length)
    (hbits : ((E.drop off).take 32).map extractBit = bitsMSB 32 SIGNATURE) :
    value32 (((flipBitAt E (off + t) 0).drop off).take 32) ≠ SIGNATURE := by
  have hlt : off + t < E.length := by omega
  have hget : E[off + t]? = some E[off + t] := List.getElem?_eq_getElem hlt
  have hbit : (bitsMSB 32 SIGNATURE)[t]? = some (extractBit E[off + t]) := by
    rw [← hbits, List.getElem?_map, List.getElem?_take_of_lt ht, List.getElem?_drop, hget]
    rfl
  have hD : (bitsMSB 32 SIGNATURE).getD t 0 = extractBit E[off + t] := by
    rw [List.getD_eq_getElem?_getD, hbit]
    rfl
  have hmap : (((flipBitAt E (off + t) 0).drop off).take 32).map extractBit
      = (bitsMSB 32 SIGNATURE).set t (1 - (bitsMSB 32 SIGNATURE).getD t 0) := by
    rw [flipBitAt, hget]
    simp only []
    rw [List.drop_set, if_neg (by omega), Nat.add_sub_cancel_left, List.set_take,
      List.map_set, hbits, extractBit_flipBit, hD]
  rw [value32_eq, hmap]
  exact flipped_signature_value t ht

theorem flipBitAt_length (E : List Byte) (i k : Nat) : (flipBitAt E i k).length = E.length := by
  unfold flipBitAt
  split <;> simp

theorem flipBitAt_getElem?_ne (E : List Byte) (i j k : Nat) (h : i ≠ j) :
    (flipBitAt E i k)[j]? = E[j]? := by
  unfold flipBitAt
  split
  · rw [List.getElem?_set_ne h]
  · rfl

set_option maxRecDepth 1000000 in
/-- Counterexample to C8 as stated: with raster offset 1 the embedding turns the marker
byte 'M' into 'L'; after the low bit of the raster byte at index `1 + 5` is flipped,
extraction fails with the structural error, not with "No hidden data found in image". -/
theorem tamper_bitmap_signature_counterexample :
    getPixelDataOffset (sampleCarrier 1 72) = .ok 1
      ∧ 1 ≤ (sampleCarrier 1 72).length
      ∧ hideData [0x41] (sampleCarrier 1 72) = .ok (embedded [0x41] (sampleCarrier 1 72) 1)
      ∧ revealData (flipBitAt (embedded [0x41] (sampleCarrier 1 72) 1) (1 + 5) 0)
          = .error (.exception .invalidContainerReveal)
      ∧ revealData (flipBitAt (embedded [0x41] (sampleCarrier 1 72) 1) (1 + 5) 0)
          ≠ .error (.exception .noHiddenDataImage) := by
  have h : revealData (flipBitAt (embedded [0x41] (sampleCarrier 1 72) 1) (1 + 5) 0)
      = .error (.exception .invalidContainerReveal) := by rfl
  refine ⟨by rfl, by decide, by rfl, h, ?_⟩
  rw [h]
  intro hc
  cases hc

/-- C8, amended (tamper detection, bitmap signature). For every carrier with
`14 <= raster_offset` and every payload on which `hideData` succeeds, flipping the low
bit of any one of the 32 raster bytes that carry the signature (indices
`raster_offset .. raster_offset + 31` of the output) makes `revealData` fail with
"No hidden data found in image". -/
theorem tamper_bitmap_signature_detected (P C out : List Byte) (off t : Nat)
    (hC : C.length ≤ MAX_SIZE) (hP : P.length ≤ MAX_SIZE)
    (ho : getPixelDataOffset C = .ok off) (h14 : 14 ≤ off)
    (h : hideData P C = .ok out) (ht : t < 32) :
    revealData (flipBitAt out (off + t) 0) = .error (.exception .noHiddenDataImage) := by
  obtain ⟨hv, hoff, hfit, rfl⟩ := hideData_ok_inv P C out off ho hC hP h
  have hfit2 : off + (64 + 8 * P.length) ≤ C.length := by omega
  have hlen := embedded_length P C off hfit2
  have hTlen := flipBitAt_length (embedded P C off) (off + t) 0
  have hhead := header_congr (flipBitAt (embedded P C off) (off + t) 0) C (hTlen.trans hlen)
    (fun i hi => by
      rw [flipBitAt_getElem?_ne _ _ _ _ (by omega)]
      exact embedded_getElem? P C off i (by omega) (by omega))
  have hbits : (((embedded P C off).drop off).take 32).map extractBit
      = bitsMSB 32 SIGNATURE := by
    have := embedded_window P C off 0 32 hfit2 (by omega)
    rw [Nat.add_zero] at this
    rw [this, frameBits_signature]
  have hne := flipped_value32 (embedded P C off) off t ht (by omega) hbits
  rw [revealData_valid _ off (hhead.1.trans hv) (hhead.2.trans ho)
    (by rw [hTlen, hlen]; exact hC) (by rw [hTlen, hlen]; omega), if_pos hne]

/-- Instance of the amended C8: the low bit of the first raster byte is flipped. -/
theorem tamper_bitmap_signature_detected_witness :
    (sampleCarrier 54 72).length ≤ MAX_SIZE ∧ [(0x41 : Byte)].length ≤ MAX_SIZE
      ∧ getPixelDataOffset (sampleCarrier 54 72) = .ok 54 ∧ 14 ≤ 54
      ∧ hideData [0x41] (sampleCarrier 54 72) = .ok (embedded [0x41] (sampleCarrier 54 72) 54)
      ∧ 0 < 32
      ∧ revealData (flipBitAt (embedded [0x41] (sampleCarrier 54 72) 54) (54 + 0) 0)
          = .error (.exception .noHiddenDataImage) := by
  have hl := sample_facts.2.2.1
  have h2 : (sampleCarrier 54 72).length ≤ MAX_SIZE := by rw [hl]; decide
  exact ⟨h2, by decide, sample_facts.2.1, by decide, sample_facts.2.2.2, by decide,
    tamper_bitmap_signature_detected [0x41] (sampleCarrier 54 72) _ 54 0 h2 (by decide)
      sample_facts.2.1 (by decide) sample_facts.2.2.2 (by decide)⟩

set_option maxRecDepth 1000000 in
/-- C9, evaluation at the failing input. The carrier `overrunCarrier` passes the
structural check, its first 32 raster low bits spell the signature and the next 32 the
length 1, and reading one payload byte needs raster bytes beyond its 118 bytes; the
length check `dataSize > image.size()` passes and `revealData` reads outside the
vector instead of throwing "Invalid data size detected". -/
theorem revealData_overrun :
    isValidBMP overrunCarrier = true
      ∧ getPixelDataOffset overrunCarrier = .ok 54
      ∧ overrunCarrier.length = 118
      ∧ value32 ((overrunCarrier.drop 54).take 32) = SIGNATURE
      ∧ value32 ((overrunCarrier.drop (54 + 32)).take 32) = 1
      ∧ 54 + 64 + 8 * 1 > overrunCarrier.length
      ∧ revealData overrunCarrier = .error .outOfBounds
      ∧ revealData overrunCarrier ≠ .error (.exception .invalidDataSize) := by
  have h : revealData overrunCarrier = .error .outOfBounds := by rfl
  refine ⟨by decide, by rfl, by decide, by decide, by decide, by decide, h, ?_⟩
  rw [h]
  intro hc
  cases hc

end ImageSteganography

/-! ## Properties of the format dispatch -/

namespace FileUtils

theorem findLastOfBelow_none (s : List Char) (c : Char) :
    ∀ n, (∀ i, i < n → s[i]? ≠ some c) → findLastOfBelow s c n = none
  | 0, _ => rfl
  | n + 1, h => by
    rw [findLastOfBelow, if_neg (h n (Nat.lt_succ_self n))]
    exact findLastOfBelow_none s c n (fun i hi => h i (Nat.lt_succ_of_lt hi))

theorem findLastOfBelow_last (pre suf : List Char) (c : Char) (hc : c ∉ suf) :
    ∀ k, k ≤ suf.length →
      findLastOfBelow (pre ++ c :: suf) c (pre.length + 1 + k) = some pre.length
  | 0, _ => by
    have h : (pre ++ c :: suf)[pre.length]? = some c := by
      rw [List.getElem?_append_right (le_refl _), Nat.sub_self, List.getElem?_cons_zero]
    rw [Nat.add_zero, findLastOfBelow, if_pos h]
  | k + 1, hk => by
    have hlt : k < suf.length := hk
    have h : (pre ++ c :: suf)[pre.length + 1 + k]? = some suf[k] := by
      rw [List.getElem?_append_right (by omega),
        show pre.length + 1 + k - pre.length = k + 1 by omega, List.getElem?_cons_succ,
        List.getElem?_eq_getElem hlt]
    have hne : suf[k] ≠ c := fun he => hc (he ▸ List.getElem_mem _)
    rw [← Nat.add_assoc, findLastOfBelow, h,
      if_neg (by intro he; exact hne (Option.some.inj he))]
    exact findLastOfBelow_last pre suf c hc k (Nat.le_of_lt hlt)

theorem getExtension_of_last_dot (pre suf : List Char) (h : '.' ∉ suf) :
    getExtension (pre ++ '.' :: suf) = suf.map Char.toLower := by
  have hl : (pre ++ '.' :: suf).length = pre.length + 1 + suf.length := by
    simp only [List.length_append, List.length_cons]; omega
  have hd : (pre ++ '.' :: suf).drop (pre.length + 1) = suf := by
    rw [List.drop_append]; rfl
  rw [getExtension, findLastOf, hl, findLastOfBelow_last pre suf '.' h _ (le_refl _)]
  simp only []
  rw [hd]

theorem getExtension_of_no_dot (path : List Char) (h : '.' ∉ path) :
    getExtension path = [] := by
  have hn : findLastOf path '.' = none := by
    apply findLastOfBelow_none
    intro i hi he
    exact h (List.getElem?_mem he)
  rw [getExtension, hn]

end FileUtils

namespace Steganography

open FileUtils in
/-- C11 (format dispatch). `selectEngine` chooses the image engine exactly when the
lower-cased text after the last '.' of the path is "bmp", the document engine exactly
when it is "pdf" or "docx", and otherwise throws the unsupported-format exception whose
message contains that lower-cased extension (the empty string for a path without '.');
two paths whose extensions differ only in letter case get the same result. -/
theorem selectEngine_dispatch (path : List Char) :
    (selectEngine path = .ok .image ↔ getExtension path = ['b', 'm', 'p'])
      ∧ (selectEngine path = .ok .document
          ↔ (getExtension path = ['p', 'd', 'f'] ∨ getExtension path = ['d', 'o', 'c', 'x']))
      ∧ ((getExtension path ≠ ['b', 'm', 'p'] ∧ getExtension path ≠ ['p', 'd', 'f']
            ∧ getExtension path ≠ ['d', 'o', 'c', 'x']) →
          selectEngine path
            = .error (.exception (.unsupportedFormat (String.mk (getExtension path)))))
      ∧ (∀ ext : String, (SteganographyException.unsupportedFormat ext).what
          = "Unsupported file format: " ++ ext ++ ". Supported: BMP, PDF, DOCX")
      ∧ ('.' ∉ path → getExtension path = [])
      ∧ (∀ pre suf, path = pre ++ '.' :: suf → '.' ∉ suf →
          getExtension path = suf.map Char.toLower)
      ∧ (∀ pre suf suf', path = pre ++ '.' :: suf → '.' ∉ suf → '.' ∉ suf' →
          suf.map Char.toLower = suf'.map Char.toLower →
          selectEngine (pre ++ '.' :: suf') = selectEngine path) := by
  refine ⟨?_, ?_, ?_, fun _ => rfl, getExtension_of_no_dot path, ?_, ?_⟩
  · unfold selectEngine
    simp only []
    constructor
    · intro h
      by_contra hne
      rw [if_neg hne] at h
      split at h <;> cases h
    · intro h
      rw [if_pos h]
  · unfold selectEngine
    simp only []
    constructor
    · intro h
      by_cases h1 : getExtension path = ['b', 'm', 'p']
      · rw [if_pos h1] at h; cases h
      · rw [if_neg h1] at h
        by_contra hne
        rw [if_neg hne] at h
        cases h
    · intro h
      have h1 : getExtension path ≠ ['b', 'm', 'p'] := by
        rcases h with h | h <;> rw [h] <;> decide
      rw [if_neg h1, if_pos h]
  · rintro ⟨h1, h2, h3⟩
    unfold selectEngine
    simp only []
    rw [if_neg h1, if_neg (by rintro (h | h); exact h2 h; exact h3 h)]
  · rintro pre suf rfl hs
    exact getExtension_of_last_dot pre suf hs
  · rintro pre suf suf' rfl hs hs' hmap
    unfold selectEngine
    rw [getExtension_of_last_dot pre suf hs, getExtension_of_last_dot pre suf' hs', hmap]

/-- Instances of C11: the extension is compared in lower case, and a path without '.'
is rejected with the empty extension. -/
theorem selectEngine_examples :
    selectEngine ['a', '.', 'B', 'm', 'P'] = .ok .image
      ∧ selectEngine ['x', '.', 'y', '.', 'D', 'O', 'C', 'X'] = .ok .document
      ∧ selectEngine ['b', 'm', 'p'] = .error (.exception (.unsupportedFormat ""))
      ∧ selectEngine ['a', '.', 'p', 'n', 'g'] = .error (.exception (.unsupportedFormat "png")) := by
  refine ⟨by rfl, by rfl, by rfl, by rfl⟩

/-- Instance of C11: the upper-case extension "BmP" selects the image engine. -/
theorem selectEngine_dispatch_witness :
    FileUtils.getExtension ['a', '.', 'B', 'm', 'P'] = ['b', 'm', 'p']
      ∧ selectEngine ['a', '.', 'B', 'm', 'P'] = .ok .image :=
  ⟨by rfl, (selectEngine_dispatch ['a', '.', 'B', 'm', 'P']).1.mpr (by rfl)⟩

end Steganography

/-! ## Trailer extraction in general -/

namespace DocumentSteganography

/-- The backward scan over in-bounds offsets either finds nothing, and then no offset of
the window holds the signature, or returns the greatest offset of the window that
holds it. -/
theorem scanBackward_spec {doc : List Byte} (hs : doc.length ≤ SIZE_MOD) :
    ∀ n, n + 4 ≤ doc.length →
      (scanBackward doc n = .ok none ∧ ∀ q, 1 ≤ q → q ≤ n → ¬ SigAt doc q)
        ∨ (∃ p, scanBackward doc n = .ok (some p) ∧ 1 ≤ p ∧ p ≤ n ∧ SigAt doc p
            ∧ ∀ q, p < q → q ≤ n → ¬ SigAt doc q)
  | 0, _ => Or.inl ⟨rfl, fun q h1 h2 => by omega⟩
  | n + 1, hn => by
    by_cases hsig : SigAt doc (n + 1)
    · have hlast : ∀ q, n + 1 < q → q ≤ n + 1 → ¬ SigAt doc q := fun q h1 h2 => by omega
      exact Or.inr ⟨n + 1, scanBackward_some hs (by omega) hsig (n + 1) hn (le_refl _) hlast,
        by omega, le_refl _, hsig, hlast⟩
    · rcases scanBackward_spec hs n (by omega) with ⟨_, hno⟩ | ⟨p, _, hp1, hpn, hp, hlast⟩
      · have hno2 : ∀ q, 1 ≤ q → q ≤ n + 1 → ¬ SigAt doc q := by
          intro q h1 h2
          by_cases hq : q = n + 1
          · rw [hq]; exact hsig
          · exact hno q h1 (by omega)
        exact Or.inl ⟨scanBackward_none hs (n + 1) hn hno2, hno2⟩
      · have hlast2 : ∀ q, p < q → q ≤ n + 1 → ¬ SigAt doc q := by
          intro q h1 h2
          by_cases hq : q = n + 1
          · rw [hq]; exact hsig
          · exact hlast q h1 (by omega)
        exact Or.inr ⟨p, scanBackward_some hs hp1 hp (n + 1) hn (by omega) hlast2,
          hp1, by omega, hp, hlast2⟩

theorem beValue_four (b0 b1 b2 b3 : Byte) :
    beValue [b0, b1, b2, b3] = b0.val * 2 ^ 24 + b1.val * 2 ^ 16 + b2.val * 2 ^ 8 + b3.val := by
  simp only [beValue, List.foldl_cons, List.foldl_nil]
  ring

theorem revealData_tooSmall (doc : List Byte) (h : doc.length < 8) :
    revealData doc = .error (.exception .tooSmall) := by
  unfold revealData
  rw [if_pos h]
  rfl

theorem scan_start (doc : List Byte) (h8 : 8 ≤ doc.length) (hD : doc.length ≤ MAX_SIZE) :
    (doc.length + SIZE_MOD - 8) % SIZE_MOD = doc.length - 8 := by
  rw [ImageSteganography.size_mod_eq]
  rw [ImageSteganography.max_size_eq] at hD
  omega

/-- Extraction when the scan finds no signature. -/
theorem revealData_notFound (doc : List Byte) (h8 : 8 ≤ doc.length) (hD : doc.length ≤ MAX_SIZE)
    (hno : ∀ q, 1 ≤ q → q ≤ doc.length - 8 → ¬ SigAt doc q) :
    revealData doc = .error (.exception .noHiddenDataDocument) := by
  have hscan : scanBackward doc (doc.length - 8) = .ok none :=
    scanBackward_none (by rw [ImageSteganography.size_mod_eq]; rw [ImageSteganography.max_size_eq] at hD; omega) _ (by omega) hno
  unfold revealData
  rw [if_neg (by omega), scan_start doc h8 hD]
  simp only [hscan, bind, Except.bind, pure, Except.pure]
  rfl

/-- Extraction when `p` is the greatest offset of the scan window that holds the
signature. -/
theorem revealData_found (doc : List Byte) (p : Nat) (h8 : 8 ≤ doc.length)
    (hD : doc.length ≤ MAX_SIZE) (hp1 : 1 ≤ p) (hp8 : p ≤ doc.length - 8) (hp : SigAt doc p)
    (hlast : ∀ q, p < q → q ≤ doc.length - 8 → ¬ SigAt doc q) :
    revealData doc
      = if beValue ((doc.drop (p + 4)).take 4) = 0
            ∨ p + 8 + beValue ((doc.drop (p + 4)).take 4) > doc.length then
          .error (.exception .invalidDataSize)
        else .ok ((doc.drop (p + 8)).take (beValue ((doc.drop (p + 4)).take 4))) := by
  have hM := ImageSteganography.size_mod_eq
  have hX := ImageSteganography.max_size_eq
  have hsz : doc.length ≤ SIZE_MOD := by rw [hM]; rw [hX] at hD; omega
  have hscan : scanBackward doc (doc.length - 8) = .ok (some p) :=
    scanBackward_some hsz hp1 hp _ (by omega) hp8 hlast
  obtain ⟨b0, b1, b2, b3, rest, hd⟩ := @drop_eq_four doc (p + 4) (by omega)
  have hL : beValue ((doc.drop (p + 4)).take 4)
      = b0.val * 2 ^ 24 + b1.val * 2 ^ 16 + b2.val * 2 ^ 8 + b3.val := by
    rw [hd]; exact beValue_four b0 b1 b2 b3
  have hLlt : beValue ((doc.drop (p + 4)).take 4) < 4294967296 := by
    have h0 := b0.isLt
    have h1 := b1.isLt
    have h2 := b2.isLt
    have h3 := b3.isLt
    rw [hL]; norm_num; omega
  have hread : readBE32 doc ((p + 4) % SIZE_MOD) = .ok (beValue ((doc.drop (p + 4)).take 4)) := by
    have e : (p + 4) % SIZE_MOD = p + 4 :=
      Nat.mod_eq_of_lt (by rw [hM]; rw [hX] at hD; omega)
    rw [e, readBE32_drop (by rw [hM]; rw [hX] at hD; omega) hd, hL]
  generalize beValue ((doc.drop (p + 4)).take 4) = L at hLlt hread ⊢
  unfold revealData
  rw [if_neg (by omega), scan_start doc h8 hD]
  simp only [hscan, bind, Except.bind, pure, Except.pure]
  rw [hread]
  simp only []
  have hcond : (L = 0 ∨ (p + 8 + L) % SIZE_MOD > doc.length) ↔ (L = 0 ∨ p + 8 + L > doc.length) := by
    rw [hM]; rw [hX] at hD; omega
  rw [if_congr hcond rfl rfl]
  by_cases hc : L = 0 ∨ p + 8 + L > doc.length
  · rw [if_pos hc, if_pos hc]
  · rw [if_neg hc, if_neg hc]
    have := copy_loop doc (p + 8) L (by omega) hsz L (le_refl _)
    simp only [bind, Except.bind, pure, Except.pure] at this
    rw [this]
    simp

/-- C14 (trailer extract frame selection). For a file D, `revealData` throws "File too
small to contain hidden data" exactly when `len(D) < 8`. Otherwise it throws "No hidden
data found in document" exactly when no offset `i` with `1 <= i <= len(D) - 8` holds the
four signature bytes (offset 0 is never examined); and when `sigPos` is the greatest
such offset and L the big-endian value of `D[sigPos+4 .. sigPos+7]`, it throws "Invalid
data size detected" exactly when `L = 0` or `sigPos + 8 + L > len(D)`, and otherwise
returns exactly the L bytes `D[sigPos+8 .. sigPos+8+L-1]`. -/
theorem trailer_extract_selection (D : List Byte) (hD : D.length ≤ MAX_SIZE) :
    (revealData D = .error (.exception .tooSmall) ↔ D.length < 8)
      ∧ (8 ≤ D.length →
          (revealData D = .error (.exception .noHiddenDataDocument)
            ↔ ∀ i, 1 ≤ i → i ≤ D.length - 8 → ¬ SigAt D i)
          ∧ ∀ sigPos, 1 ≤ sigPos → sigPos ≤ D.length - 8 → SigAt D sigPos →
              (∀ q, sigPos < q → q ≤ D.length - 8 → ¬ SigAt D q) →
              (revealData D = .error (.exception .invalidDataSize)
                ↔ (beValue ((D.drop (sigPos + 4)).take 4) = 0
                    ∨ sigPos + 8 + beValue ((D.drop (sigPos + 4)).take 4) > D.length))
              ∧ (¬ (beValue ((D.drop (sigPos + 4)).take 4) = 0
                    ∨ sigPos + 8 + beValue ((D.drop (sigPos + 4)).take 4) > D.length) →
                  revealData D
                    = .ok ((D.drop (sigPos + 8)).take (beValue ((D.drop (sigPos + 4)).take 4)))
                  ∧ ((D.drop (sigPos + 8)).take
                      (beValue ((D.drop (sigPos + 4)).take 4))).length
                    = beValue ((D.drop (sigPos + 4)).take 4))) := by
  have hsz : D.length ≤ SIZE_MOD := by
    rw [ImageSteganography.size_mod_eq]; rw [ImageSteganography.max_size_eq] at hD; omega
  refine ⟨⟨?_, revealData_tooSmall D⟩, ?_⟩
  · intro h
    by_contra h8
    rcases scanBackward_spec hsz (D.length - 8) (by omega) with
      ⟨_, hno⟩ | ⟨p, _, hp1, hp8, hp, hlast⟩
    · rw [revealData_notFound D (by omega) hD hno] at h
      cases h
    · rw [revealData_found D p (by omega) hD hp1 hp8 hp hlast] at h
      split at h <;> cases h
  · intro h8
    refine ⟨⟨?_, revealData_notFound D h8 hD⟩, ?_⟩
    · intro h
      rcases scanBackward_spec hsz (D.length - 8) (by omega) with
        ⟨_, hno⟩ | ⟨p, _, hp1, hp8, hp, hlast⟩
      · exact hno
      · rw [revealData_found D p h8 hD hp1 hp8 hp hlast] at h
        split at h <;> cases h
    · intro sigPos hp1 hp8 hp hlast
      rw [revealData_found D sigPos h8 hD hp1 hp8 hp hlast]
      refine ⟨⟨?_, fun hc => by rw [if_pos hc]⟩, ?_⟩
      · intro h
        by_contra hc
        rw [if_neg hc] at h
        cases h
      · intro hc
        refine ⟨by rw [if_neg hc], ?_⟩
        rw [List.length_take, List.length_drop]
        omega

/-- Instance of C14: a file that consists of one frame starting at byte 0. Offset 0 is
not examined, so the frame is missed and extraction reports that no hidden data was
found. -/
theorem trailer_extract_selection_witness :
    (hideData [0x41] []).length ≤ MAX_SIZE
      ∧ SigAt (hideData [0x41] []) 0
      ∧ revealData (hideData [0x41] []) = .error (.exception .noHiddenDataDocument) := by
  have hl : (hideData [0x41] []).length = 9 := by decide
  have hD : (hideData [0x41] []).length ≤ MAX_SIZE := by decide
  refine ⟨hD, by decide, ?_⟩
  refine ((trailer_extract_selection (hideData [0x41] []) hD).2 (by decide)).1.mpr ?_
  intro i h1 h2
  rw [hl] at h2
  have hi : i = 1 := by omega
  subst hi
  decide

/-- After the start of an appended frame, the signature can only be met inside
`BE32(len) ++ payload`. -/
theorem sigAt_after_frame (C Y : List Byte) (t : Nat)
    (h : SigAt (C ++ (sigBytes ++ Y)) (C.length + (t + 1))) :
    3 ≤ t ∧ SigAt Y (t - 3) := by
  rw [SigAt, List.drop_append] at h
  rcases t with _ | _ | _ | t
  · simp [sigBytes] at h
  · simp [sigBytes] at h
  · simp [sigBytes] at h
  · refine ⟨by omega, ?_⟩
    rw [SigAt]
    simpa [sigBytes] using h

/-- C18 (conditional trailer round trip). For every non-empty carrier C and every
payload P with `0 < len(P) < 2^32` such that the four signature bytes do not occur in
`BE32(len(P)) ++ P` starting at any index `j <= len(P) - 4`, `revealData` applied to
`hideData(P, C)` returns exactly P, whatever bytes C contains. -/
theorem conditional_trailer_round_trip (P C : List Byte) (hC : C ≠ []) (hP0 : 0 < P.length)
    (hP : P.length < 2 ^ 32) (hsize : C.length + 8 + P.length ≤ MAX_SIZE)
    (hno : ∀ j, j + 4 ≤ P.length → ¬ SigAt (be32 P.length ++ P) j) :
    revealData (hideData P C) = .ok P := by
  apply revealData_hideData_aux P C hC hP0 hP hsize
  intro q h1 h2 hs
  obtain ⟨t, rfl⟩ : ∃ t, q = C.length + (t + 1) := ⟨q - C.length - 1, by omega⟩
  rw [hideData_eq, Nat.mod_eq_of_lt hP] at hs
  obtain ⟨h3, hY⟩ := sigAt_after_frame C _ t hs
  exact hno (t - 3) (by omega) hY

/-- Instance of C18: the carrier itself holds the signature bytes, the payload does
not. -/
theorem conditional_trailer_round_trip_witness :
    ([0x44, 0x53, 0x54, 0x47, 0, 0, 0, 1, 7] : List Byte) ≠ []
      ∧ 0 < [(0x41 : Byte), 0x42, 0x43, 0x44, 0x45].length
      ∧ [(0x41 : Byte), 0x42, 0x43, 0x44, 0x45].length < 2 ^ 32
      ∧ ([0x44, 0x53, 0x54, 0x47, 0, 0, 0, 1, 7] : List Byte).length + 8
          + [(0x41 : Byte), 0x42, 0x43, 0x44, 0x45].length ≤ MAX_SIZE
      ∧ (∀ j, j + 4 ≤ [(0x41 : Byte), 0x42, 0x43, 0x44, 0x45].length →
          ¬ SigAt (be32 [(0x41 : Byte), 0x42, 0x43, 0x44, 0x45].length
            ++ [0x41, 0x42, 0x43, 0x44, 0x45]) j)
      ∧ revealData (hideData [0x41, 0x42, 0x43, 0x44, 0x45]
          [0x44, 0x53, 0x54, 0x47, 0, 0, 0, 1, 7]) = .ok [0x41, 0x42, 0x43, 0x44, 0x45] := by
  have hno : ∀ j, j + 4 ≤ [(0x41 : Byte), 0x42, 0x43, 0x44, 0x45].length →
      ¬ SigAt (be32 [(0x41 : Byte), 0x42, 0x43, 0x44, 0x45].length
        ++ [0x41, 0x42, 0x43, 0x44, 0x45]) j := by
    intro j hj
    have hj2 : j < 2 := by simp at hj; omega
    interval_cases j <;> decide
  exact ⟨by decide, by decide, by decide, by decide, hno,
    conditional_trailer_round_trip _ _ (by decide) (by decide) (by decide) (by decide) hno⟩

end DocumentSteganography

/-! ## Further properties of the bitmap codec -/

namespace ImageSteganography

/-- A byte of `embedded` inside the frame's span is the carrier byte with one frame bit
written into its low bit. -/
theorem embedded_getElem?_mid (data image : List Byte) (off k : Nat)
    (h : off + (64 + 8 * data.length) ≤ image.length) (hk : k < 64 + 8 * data.length) :
    ∃ c b, image[off + k]? = some c ∧ (frameBits data)[k]? = some b ∧ b < 2
      ∧ (embedded data image off)[off + k]? = some (embedBit c b) := by
  have hc : image[off + k]? = some image[off + k] := List.getElem?_eq_getElem (by omega)
  have hkb : k < (frameBits data).length := by rw [frameBits_length]; exact hk
  have hb : (frameBits data)[k]? = some (frameBits data)[k] := List.getElem?_eq_getElem hkb
  refine ⟨image[off + k], (frameBits data)[k], hc, hb,
    frameBits_lt data _ (List.getElem_mem _), ?_⟩
  have hpre : (image.take off).length = off := by rw [List.length_take]; omega
  have hz : k < (List.zipWith embedBit ((image.drop off).take (64 + 8 * data.length))
      (frameBits data)).length := by
    rw [List.length_zipWith, List.length_take, List.length_drop, frameBits_length]
    omega
  rw [embedded, List.getElem?_append_right (by omega), hpre, Nat.add_sub_cancel_left,
    List.getElem?_append_left hz, List.getElem?_zipWith, List.getElem?_take_of_lt hk,
    List.getElem?_drop, hc, hb]

/-- A byte of `embedded` after the frame's span is the carrier byte. -/
theorem embedded_getElem?_post (data image : List Byte) (off i : Nat)
    (h : off + (64 + 8 * data.length) ≤ image.length)
    (hi : off + (64 + 8 * data.length) ≤ i) :
    (embedded data image off)[i]? = image[i]? := by
  have hpre : (image.take off).length = off := by rw [List.length_take]; omega
  have hz : (List.zipWith embedBit ((image.drop off).take (64 + 8 * data.length))
      (frameBits data)).length = 64 + 8 * data.length := by
    rw [List.length_zipWith, List.length_take, List.length_drop, frameBits_length]
    omega
  rw [embedded, List.getElem?_append_right (by omega), hpre,
    List.getElem?_append_right (by omega), hz, List.getElem?_drop]
  congr 1
  omega

set_option maxRecDepth 100000 in
theorem embedBit_near : ∀ (c : Byte) (b : Fin 2),
    (embedBit c b.val).val ≤ c.val + 1 ∧ c.val ≤ (embedBit c b.val).val + 1
      ∧ (embedBit c b.val).val / 2 = c.val / 2 ∧ (embedBit c b.val).val % 2 = b.val := by
  decide

/-- C20 (embed touches only the frame's bit span). Whenever `hideData` succeeds, every
output byte at an index `>= raster_offset + 8 * (8 + len(P))` is the corresponding
carrier byte, and every output byte differs from the corresponding carrier byte by at
most 1 in value. -/
theorem hideData_frame_effect (P C out : List Byte) (off : Nat)
    (hC : C.length ≤ MAX_SIZE) (hP : P.length ≤ MAX_SIZE)
    (ho : getPixelDataOffset C = .ok off) (h : hideData P C = .ok out) :
    (∀ i, off + 8 * (8 + P.length) ≤ i → out[i]? = C[i]?)
      ∧ ∀ (i : Nat) (c o : Byte), C[i]? = some c → out[i]? = some o →
          o.val ≤ c.val + 1 ∧ c.val ≤ o.val + 1 := by
  obtain ⟨_, hoff, hfit, rfl⟩ := hideData_ok_inv P C out off ho hC hP h
  have hfit2 : off + (64 + 8 * P.length) ≤ C.length := by omega
  refine ⟨fun i hi => embedded_getElem?_post P C off i hfit2 (by omega), ?_⟩
  intro i c o hc hout
  by_cases h1 : i < off
  · rw [embedded_getElem? P C off i h1 (by omega), hc] at hout
    cases hout
    omega
  · by_cases h2 : i < off + (64 + 8 * P.length)
    · obtain ⟨c2, b, hc2, _, hb, he⟩ := embedded_getElem?_mid P C off (i - off) hfit2 (by omega)
      rw [Nat.add_sub_cancel' (by omega)] at hc2 he
      rw [hc] at hc2
      rw [hout] at he
      cases hc2
      cases he
      have := embedBit_near c ⟨b, hb⟩
      exact ⟨this.1, this.2.1⟩
    · rw [embedded_getElem?_post P C off i hfit2 (by omega), hc] at hout
      cases hout
      omega

/-- Instance of C20: one byte hidden in a carrier with 72 raster bytes. -/
theorem hideData_frame_effect_witness :
    (sampleCarrier 54 72).length ≤ MAX_SIZE ∧ [(0x41 : Byte)].length ≤ MAX_SIZE
      ∧ getPixelDataOffset (sampleCarrier 54 72) = .ok 54
      ∧ hideData [0x41] (sampleCarrier 54 72) = .ok (embedded [0x41] (sampleCarrier 54 72) 54)
      ∧ ((∀ i, 54 + 8 * (8 + [(0x41 : Byte)].length) ≤ i →
            (embedded [0x41] (sampleCarrier 54 72) 54)[i]? = (sampleCarrier 54 72)[i]?)
          ∧ ∀ (i : Nat) (c o : Byte), (sampleCarrier 54 72)[i]? = some c →
              (embedded [0x41] (sampleCarrier 54 72) 54)[i]? = some o →
              o.val ≤ c.val + 1 ∧ c.val ≤ o.val + 1) := by
  have hl := sample_facts.2.2.1
  have h2 : (sampleCarrier 54 72).length ≤ MAX_SIZE := by rw [hl]; decide
  exact ⟨h2, by decide, sample_facts.2.1, sample_facts.2.2.2,
    hideData_frame_effect [0x41] (sampleCarrier 54 72) _ 54 h2 (by decide)
      sample_facts.2.1 sample_facts.2.2.2⟩

open DocumentSteganography in
theorem bitsMSB_getElem? (w x j : Nat) (hj : j < w) :
    (bitsMSB w x)[j]? = some (x / 2 ^ (w - 1 - j) % 2) := by
  have hr : (List.range w).reverse[j]? = some (w - 1 - j) := by
    rw [List.getElem?_reverse (by simpa using hj), List.length_range,
      List.getElem?_range (by omega)]
  rw [bitsMSB, downFrom, List.getElem?_map, hr]
  simp only [Option.map_some', Nat.and_one_is_mod, Nat.shiftRight_eq_div_pow]

open DocumentSteganography in
theorem be32_bit_aux (x q r : Nat) (hq : q < 4) (hr : r < 8) (hx : x < 2 ^ 32) :
    ∃ f, (be32 x)[q]? = some f
      ∧ f.val / 2 ^ (7 - r) % 2 = x / 2 ^ (31 - (8 * q + r)) % 2 := by
  interval_cases q
  · refine ⟨Fin.ofNat (x / 2 ^ 24 % 256), rfl, ?_⟩
    interval_cases r <;> simp only [Fin.ofNat] <;> norm_num <;> omega
  · refine ⟨Fin.ofNat (x / 2 ^ 16 % 256), rfl, ?_⟩
    interval_cases r <;> simp only [Fin.ofNat] <;> norm_num <;> omega
  · refine ⟨Fin.ofNat (x / 2 ^ 8 % 256), rfl, ?_⟩
    interval_cases r <;> simp only [Fin.ofNat] <;> norm_num <;> omega
  · refine ⟨Fin.ofNat (x % 256), rfl, ?_⟩
    interval_cases r <;> simp only [Fin.ofNat] <;> norm_num <;> omega

open DocumentSteganography in
theorem be32_bit (x k : Nat) (hk : k < 32) (hx : x < 2 ^ 32) :
    ∃ f, (be32 x)[k / 8]? = some f ∧ f.val / 2 ^ (7 - k % 8) % 2 = x / 2 ^ (31 - k) % 2 := by
  have h := be32_bit_aux x (k / 8) (k % 8) (by omega) (by omega) hx
  rwa [Nat.div_add_mod] at h

open DocumentSteganography in
/-- The `k`-th embedded bit is bit `7 - k mod 8` of byte `k div 8` of the frame
`BE32(SIGNATURE) ++ BE32(len) ++ payload`. -/
theorem frameBits_getElem? (P : List Byte) (k : Nat) (hP : P.length < 2 ^ 32)
    (hk : k < 64 + 8 * P.length) :
    ∃ f, (be32 SIGNATURE ++ be32 P.length ++ P)[k / 8]? = some f
      ∧ (frameBits P)[k]? = some (f.val / 2 ^ (7 - k % 8) % 2) := by
  have hlen := frameBits_length P
  have h4 : ∀ x, (be32 x).length = 4 := fun _ => rfl
  by_cases h1 : k < 32
  · obtain ⟨f, hf, hbit⟩ := be32_bit SIGNATURE k h1 (by decide)
    refine ⟨f, ?_, ?_⟩
    · rw [List.append_assoc, List.getElem?_append_left (by rw [h4]; omega), hf]
    · have h := frameBits_signature P
      rw [List.drop_zero] at h
      rw [← List.getElem?_take_of_lt h1, h, bitsMSB_getElem? 32 SIGNATURE k h1, hbit]
  · by_cases h2 : k < 64
    · obtain ⟨f, hf, hbit⟩ := be32_bit P.length (k - 32) (by omega) hP
      refine ⟨f, ?_, ?_⟩
      · rw [List.append_assoc, List.getElem?_append_right (by rw [h4]; omega), h4,
          List.getElem?_append_left (by rw [h4]; omega),
          show k / 8 - 4 = (k - 32) / 8 by omega, hf]
      · have h := frameBits_size P
        rw [UINT32_MOD, Nat.mod_eq_of_lt hP] at h
        have hk2 : k = 32 + (k - 32) := by omega
        rw [hk2, ← List.getElem?_drop, ← List.getElem?_take_of_lt (by omega : k - 32 < 32), h,
          bitsMSB_getElem? 32 P.length (k - 32) (by omega), ← hk2,
          show 7 - k % 8 = 7 - (k - 32) % 8 by omega,
          show 32 - 1 - (k - 32) = 31 - (k - 32) by omega, hbit]
    · have hi : (k - 64) / 8 < P.length := by omega
      refine ⟨P[(k - 64) / 8], ?_, ?_⟩
      · rw [List.getElem?_append_right (by rw [List.length_append, h4, h4]; omega),
          List.length_append, h4, h4, show k / 8 - (4 + 4) = (k - 64) / 8 by omega,
          List.getElem?_eq_getElem hi]
      · have h := frameBits_byte P ((k - 64) / 8) hi
        have hj : (k - 64) % 8 < 8 := Nat.mod_lt _ (by decide)
        have e : (frameBits P)[k]?
            = (((frameBits P).drop (64 + 8 * ((k - 64) / 8))).take 8)[(k - 64) % 8]? := by
          rw [List.getElem?_take_of_lt hj, List.getElem?_drop]
          exact congrArg (fun n => (frameBits P)[n]?) (by omega)
        rw [e, h, bitsMSB_getElem? 8 _ _ hj, show 8 - 1 - (k - 64) % 8 = 7 - k % 8 by omega]

open DocumentSteganography in
/-- C13 (embed bit layout). Whenever `hideData` succeeds on a payload shorter than 2^32
bytes, with `F = BE32(0x53544547) ++ BE32(len(P)) ++ P`, for every `k < 8 * len(F)` the
output byte at index `raster_offset + k` has its low bit equal to bit `7 - k mod 8` of
`F[k div 8]` and its upper 7 bits equal to those of the carrier byte at that index. -/
theorem embed_bit_layout (P C out : List Byte) (off : Nat)
    (hC : C.length ≤ MAX_SIZE) (hP : P.length < 2 ^ 32)
    (ho : getPixelDataOffset C = .ok off) (h : hideData P C = .ok out) :
    ∀ k, k < 8 * (be32 SIGNATURE ++ be32 P.length ++ P).length →
      ∃ f c o, (be32 SIGNATURE ++ be32 P.length ++ P)[k / 8]? = some f
        ∧ C[off + k]? = some c ∧ out[off + k]? = some o
        ∧ o.val % 2 = f.val / 2 ^ (7 - k % 8) % 2 ∧ o.val / 2 = c.val / 2 := by
  have hPmax : P.length ≤ MAX_SIZE := by rw [max_size_eq]; omega
  obtain ⟨_, hoff, hfit, rfl⟩ := hideData_ok_inv P C out off ho hC hPmax h
  have hfit2 : off + (64 + 8 * P.length) ≤ C.length := by omega
  intro k hk
  have hk2 : k < 64 + 8 * P.length := by
    have h4 : ∀ x, (be32 x).length = 4 := fun _ => rfl
    rw [List.length_append, List.length_append, h4, h4] at hk
    omega
  obtain ⟨f, hf, hfb⟩ := frameBits_getElem? P k hP hk2
  obtain ⟨c, b, hc, hb, hblt, he⟩ := embedded_getElem?_mid P C off k hfit2 hk2
  rw [hfb] at hb
  cases hb
  have hnear := embedBit_near c ⟨_, hblt⟩
  exact ⟨f, c, _, hf, hc, he, hnear.2.2.2, hnear.2.2.1⟩

/-- Instance of C13: one byte hidden in a carrier with 72 raster bytes. -/
theorem embed_bit_layout_witness :
    (sampleCarrier 54 72).length ≤ MAX_SIZE ∧ [(0x41 : Byte)].length < 2 ^ 32
      ∧ getPixelDataOffset (sampleCarrier 54 72) = .ok 54
      ∧ hideData [0x41] (sampleCarrier 54 72) = .ok (embedded [0x41] (sampleCarrier 54 72) 54)
      ∧ ∀ k, k < 8 * (DocumentSteganography.be32 SIGNATURE
            ++ DocumentSteganography.be32 [(0x41 : Byte)].length ++ [0x41]).length →
          ∃ f c o, (DocumentSteganography.be32 SIGNATURE
              ++ DocumentSteganography.be32 [(0x41 : Byte)].length ++ [0x41])[k / 8]? = some f
            ∧ (sampleCarrier 54 72)[54 + k]? = some c
            ∧ (embedded [0x41] (sampleCarrier 54 72) 54)[54 + k]? = some o
            ∧ o.val % 2 = f.val / 2 ^ (7 - k % 8) % 2 ∧ o.val / 2 = c.val / 2 := by
  have hl := sample_facts.2.2.1
  have h2 : (sampleCarrier 54 72).length ≤ MAX_SIZE := by rw [hl]; decide
  exact ⟨h2, by decide, sample_facts.2.1, sample_facts.2.2.2,
    embed_bit_layout [0x41] (sampleCarrier 54 72) _ 54 h2 (by decide)
      sample_facts.2.1 sample_facts.2.2.2⟩

theorem or_shl_eq (a x k : Nat) (ha : a < 2 ^ k) : a ||| (x <<< k) = a + x * 2 ^ k := by
  rw [Nat.lor_comm, shl_or_eq x a k ha, Nat.add_comm]

theorem header_pattern (b10 b11 b12 b13 : Byte) :
    b10.val ||| (b11.val <<< 8) ||| (b12.val <<< 16) ||| (b13.val <<< 24)
      = b10.val + 2 ^ 8 * b11.val + 2 ^ 16 * b12.val + 2 ^ 24 * b13.val := by
  have h0 := b10.isLt
  have h1 := b11.isLt
  have h2 := b12.isLt
  have h3 := b13.isLt
  rw [or_shl_eq b10.val b11.val 8 (by omega),
    or_shl_eq _ b12.val 16 (by norm_num; omega),
    or_shl_eq _ b13.val 24 (by norm_num; omega)]
  ring

/-- The value computed by `getPixelDataOffset`: the little-endian value of bytes 10..13
when byte 13 is below 0x80, and that value plus `2^64 - 2^32` (the sign extension of the
negative `int`) otherwise. -/
theorem getPixelDataOffset_value (C : List Byte) (h : 14 ≤ C.length) :
    getPixelDataOffset C
      = .ok (if (C.getD 13 0).val < 0x80 then headerOffsetLE C
          else headerOffsetLE C + (2 ^ 64 - 2 ^ 32)) := by
  have g : ∀ i, i < 14 → vecGet C i = .ok (C.getD i 0) := by
    intro i hi
    apply vecGet_of_getElem?
    rw [List.getD_eq_getElem?_getD, List.getElem?_eq_getElem (by omega)]
    rfl
  unfold getPixelDataOffset
  rw [g 10 (by decide), g 11 (by decide), g 12 (by decide), g 13 (by decide)]
  simp only [bind, Except.bind, pure, Except.pure]
  rw [header_pattern]
  refine congrArg Except.ok ?_
  have h0 := (C.getD 10 0).isLt
  have h1 := (C.getD 11 0).isLt
  have h2 := (C.getD 12 0).isLt
  have h3 := (C.getD 13 0).isLt
  unfold headerOffsetLE intToSizeT wrapInt32
  norm_num
  split <;> split <;> omega

set_option maxRecDepth 1000000 in
/-- C17, evaluation at the failing input. For the 54-byte carrier with header bytes
10..13 equal to `00 00 00 80`, `imageData[13] << 24` overflows `int`, the or-ed `int`
is negative, and its conversion to `size_t` yields `2^64 - 2^31`, not the little-endian
value `2^31`. -/
theorem getPixelDataOffset_signed :
    signedOffsetCarrier.length = 54
      ∧ isValidBMP signedOffsetCarrier = true
      ∧ headerOffsetLE signedOffsetCarrier = 2147483648
      ∧ getPixelDataOffset signedOffsetCarrier = .ok 18446744071562067968
      ∧ getPixelDataOffset signedOffsetCarrier ≠ .ok (headerOffsetLE signedOffsetCarrier) := by
  have h : getPixelDataOffset signedOffsetCarrier = .ok 18446744071562067968 := by rfl
  have hle : headerOffsetLE signedOffsetCarrier = 2147483648 := by rfl
  refine ⟨by decide, by decide, hle, h, ?_⟩
  rw [h, hle]
  intro hc
  cases hc

set_option maxRecDepth 1000000 in
/-- C16, evaluation at the failing input. The 54-byte carrier `sampleCarrier 100 0`
passes the structural check and declares raster offset 100, beyond its end;
`image.size() - pixelOffset` wraps around as a `size_t`, the capacity check passes, and
the first write `image[100]` is outside the vector instead of the capacity exception
being thrown. -/
theorem hideData_offset_beyond_end :
    (sampleCarrier 100 0).length = 54
      ∧ isValidBMP (sampleCarrier 100 0) = true
      ∧ getPixelDataOffset (sampleCarrier 100 0) = .ok 100
      ∧ hideData [0x41] (sampleCarrier 100 0) = .error .outOfBounds
      ∧ ∀ r a, hideData [0x41] (sampleCarrier 100 0) ≠ .error (.exception (.capacity r a)) := by
  have h : hideData [0x41] (sampleCarrier 100 0) = .error .outOfBounds := by rfl
  refine ⟨by decide, by decide, by rfl, h, ?_⟩
  intro r a hc
  rw [h] at hc
  cases hc

end ImageSteganography

/-! ## Which failures a run can end in -/

theorem vecGet_error {v : List Byte} {i : Nat} {e : Failure} (h : vecGet v i = .error e) :
    e = .outOfBounds := by
  unfold vecGet at h
  split at h
  · cases h
  · cases h; rfl

theorem iterateM_error {σ : Type} (f : σ → Except Failure σ)
    (hf : ∀ s e, f s = .error e → e = .outOfBounds) :
    ∀ (n : Nat) (s : σ) (e : Failure), iterateM f n s = .error e → e = .outOfBounds
  | 0, s, e, h => by cases h
  | n + 1, s, e, h => by
    rw [iterateM] at h
    cases hs : f s with
    | error e1 =>
      rw [hs] at h
      cases h
      exact hf s _ hs
    | ok s1 =>
      rw [hs] at h
      exact iterateM_error f hf n s1 e h

theorem foldlM_error {σ α : Type} (f : σ → α → Except Failure σ)
    (hf : ∀ s a e, f s a = .error e → e = .outOfBounds) :
    ∀ (l : List α) (s : σ) (e : Failure), l.foldlM f s = .error e → e = .outOfBounds
  | [], s, e, h => by cases h
  | a :: l, s, e, h => by
    rw [List.foldlM_cons] at h
    cases hs : f s a with
    | error e1 =>
      rw [hs] at h
      cases h
      exact hf s a _ hs
    | ok s1 =>
      rw [hs] at h
      exact foldlM_error f hf l s1 e h

namespace ImageSteganography

theorem embedStep_error (off : Nat) (st : List Byte × Nat) (bit : Nat) (e : Failure)
    (h : embedStep off st bit = .error e) : e = .outOfBounds := by
  unfold embedStep at h
  cases hg : vecGet st.1 ((off + st.2) % SIZE_MOD) with
  | error e1 =>
    simp only [hg, bind, Except.bind] at h
    cases h
    exact vecGet_error hg
  | ok c =>
    simp only [hg, bind, Except.bind, pure, Except.pure] at h
    cases h

theorem readStep32_error (image : List Byte) (off : Nat) (st : Nat × Nat) (e : Failure)
    (h : readStep32 image off st = .error e) : e = .outOfBounds := by
  unfold readStep32 at h
  cases hg : vecGet image ((off + st.2) % SIZE_MOD) with
  | error e1 =>
    simp only [hg, bind, Except.bind] at h
    cases h
    exact vecGet_error hg
  | ok c =>
    simp only [hg, bind, Except.bind, pure, Except.pure] at h
    cases h

theorem readStep8_error (image : List Byte) (off : Nat) (st : Byte × Nat) (e : Failure)
    (h : readStep8 image off st = .error e) : e = .outOfBounds := by
  unfold readStep8 at h
  cases hg : vecGet image ((off + st.2) % SIZE_MOD) with
  | error e1 =>
    simp only [hg, bind, Except.bind] at h
    cases h
    exact vecGet_error hg
  | ok c =>
    simp only [hg, bind, Except.bind, pure, Except.pure] at h
    cases h

theorem isValidBMP_iff (C : List Byte) :
    isValidBMP C = true ↔ (54 ≤ C.length ∧ C[0]? = some 66 ∧ C[1]? = some 77) := by
  unfold isValidBMP
  by_cases h : C.length < 54
  · simp [h]
  · simp [h]
    omega

theorem getPixelDataOffset_ok (C : List Byte) (hv : isValidBMP C = true) :
    ∃ off, getPixelDataOffset C = .ok off :=
  ⟨_, getPixelDataOffset_value C (by have := (isValidBMP_iff C).mp hv; omega)⟩

/-- After the structural check, `hideData` can only fail with the capacity exception or
by leaving the vector. -/
theorem hideData_error_of_valid (P C : List Byte) (e : Failure) (hv : isValidBMP C = true)
    (h : hideData P C = .error e) :
    e = .outOfBounds ∨ ∃ r a, e = .exception (.capacity r a) := by
  obtain ⟨off, ho⟩ := getPixelDataOffset_ok C hv
  rw [hideData_valid P C off hv ho] at h
  split at h
  · cases h
    exact Or.inr ⟨_, _, rfl⟩
  · left
    cases hf : (frameBits P).foldlM (embedStep off) (C, 0) with
    | error e1 =>
      rw [hf] at h
      cases h
      exact foldlM_error _ (embedStep_error off) _ _ _ hf
    | ok st =>
      rw [hf] at h
      cases h

end ImageSteganography

theorem bind_pure_error {α β : Type} {m : Except Failure α} {g : α → β} {e : Failure}
    (h : (m >>= fun d => pure (g d)) = .error e) : m = .error e := by
  cases m with
  | error e1 => cases h; rfl
  | ok a => cases h

namespace ImageSteganography

/-- When reading the signature leaves the vector, so does `revealData`. -/
theorem revealData_sig_error (image : List Byte) (off : Nat) (e1 : Failure)
    (hv : isValidBMP image = true) (ho : getPixelDataOffset image = .ok off)
    (h1 : iterateM (readStep32 image off) 32 (0, 0) = .error e1) :
    revealData image = .error e1 := by
  unfold revealData
  rw [hv, ho, show (Except.ok off : Except Failure Nat) = pure off from rfl]
  simp only [Bool.not_true, Bool.false_eq_true, ↓reduceIte, pure_bind]
  rw [h1]
  rfl

/-- `revealData` once the 32 signature bits have been read. -/
theorem revealData_after_sig (image : List Byte) (off : Nat) (d1 : Nat × Nat)
    (hv : isValidBMP image = true) (ho : getPixelDataOffset image = .ok off)
    (h1 : iterateM (readStep32 image off) 32 (0, 0) = .ok d1) :
    (d1.1 ≠ SIGNATURE → revealData image = .error (.exception .noHiddenDataImage))
      ∧ (d1.1 = SIGNATURE → ∀ e, revealData image = .error e →
          e = .outOfBounds ∨ e = .exception .invalidDataSize) := by
  have hun := revealData.eq_1 image
  rw [hv, ho, show (Except.ok off : Except Failure Nat) = pure off from rfl] at hun
  simp only [Bool.not_true, Bool.false_eq_true, ↓reduceIte, pure_bind] at hun
  rw [h1, show ∀ (x : Nat × Nat), (Except.ok x : Except Failure (Nat × Nat)) = pure x
    from fun _ => rfl, pure_bind] at hun
  constructor
  · intro hs
    rw [hun, if_pos hs]
    rfl
  · intro hs e he
    rw [hun, if_neg (by rw [hs]; simp)] at he
    cases h2 : iterateM (readStep32 image off) 32 (0, d1.2) with
    | error e2 =>
      rw [h2] at he
      cases he
      exact Or.inl (iterateM_error _ (readStep32_error image off) _ _ _ h2)
    | ok d2 =>
      rw [h2, show ∀ (x : Nat × Nat), (Except.ok x : Except Failure (Nat × Nat)) = pure x
        from fun _ => rfl, pure_bind] at he
      split at he
      · cases he
        exact Or.inr rfl
      · have h3 := bind_pure_error he
        refine Or.inl (foldlM_error _ ?_ _ _ _ h3)
        intro s a e4 h4
        exact iterateM_error _ (readStep8_error image off) _ _ _ (bind_pure_error h4)

/-- After the structural check, `revealData` can only fail with the signature or length
exception or by leaving the vector. -/
theorem revealData_error_of_valid (C : List Byte) (e : Failure) (hv : isValidBMP C = true)
    (h : revealData C = .error e) :
    e = .outOfBounds ∨ e = .exception .noHiddenDataImage
      ∨ e = .exception .invalidDataSize := by
  obtain ⟨off, ho⟩ := getPixelDataOffset_ok C hv
  cases h1 : iterateM (readStep32 C off) 32 (0, 0) with
  | error e1 =>
    rw [revealData_sig_error C off e1 hv ho h1] at h
    cases h
    exact Or.inl (iterateM_error _ (readStep32_error C off) _ _ _ h1)
  | ok d1 =>
    have hs := revealData_after_sig C off d1 hv ho h1
    by_cases hsig : d1.1 = SIGNATURE
    · rcases hs.2 hsig e h with h2 | h2
      · exact Or.inl h2
      · exact Or.inr (Or.inr h2)
    · rw [hs.1 hsig] at h
      cases h
      exact Or.inr (Or.inl rfl)

theorem revealData_invalid (C : List Byte) (h : isValidBMP C = false) :
    revealData C = .error (.exception .invalidContainerReveal) := by
  unfold revealData
  rw [h]
  rfl

/-- C12 (structural check). For every carrier C and payload P, `hideData` and
`revealData` throw their invalid-container exception exactly when `len(C) < 54` or
`C[0] != 'B'` or `C[1] != 'M'`; in particular no other failure is reported for such a
carrier. -/
theorem structural_check (P C : List Byte) :
    (hideData P C = .error (.exception .invalidContainerHide)
        ↔ (C.length < 54 ∨ C[0]? ≠ some 66 ∨ C[1]? ≠ some 77))
      ∧ (revealData C = .error (.exception .invalidContainerReveal)
        ↔ (C.length < 54 ∨ C[0]? ≠ some 66 ∨ C[1]? ≠ some 77)) := by
  have hiff : isValidBMP C = false ↔ (C.length < 54 ∨ C[0]? ≠ some 66 ∨ C[1]? ≠ some 77) := by
    rw [← Bool.not_eq_true, isValidBMP_iff]
    constructor
    · intro h
      by_contra hc
      exact h ⟨by omega, by_contra (fun h0 => hc (Or.inr (Or.inl h0))),
        by_contra (fun h1 => hc (Or.inr (Or.inr h1)))⟩
    · rintro (h | h | h) ⟨h1, h2, h3⟩
      · omega
      · exact h h2
      · exact h h3
  rw [← hiff]
  constructor
  · refine ⟨fun h => ?_, hideData_invalid P C⟩
    by_contra hv
    rcases hideData_error_of_valid P C _ (by simpa using hv) h with h1 | ⟨r, a, h1⟩ <;> cases h1
  · refine ⟨fun h => ?_, revealData_invalid C⟩
    by_contra hv
    rcases revealData_error_of_valid C _ (by simpa using hv) h with h1 | h1 | h1 <;> cases h1

/-- The case analysis of `revealData` in terms of `value32` and `value8`, as long as the
raster bytes read lie within the carrier. -/
theorem revealData_cases (C : List Byte) (off : Nat) (hv : isValidBMP C = true)
    (ho : getPixelDataOffset C = .ok off) (hC : C.length ≤ MAX_SIZE)
    (h32 : off + 32 ≤ C.length) :
    (revealData C = .error (.exception .noHiddenDataImage)
        ↔ value32 ((C.drop off).take 32) ≠ SIGNATURE)
      ∧ (value32 ((C.drop off).take 32) = SIGNATURE → off + 64 ≤ C.length →
          (revealData C = .error (.exception .invalidDataSize)
            ↔ (value32 ((C.drop (off + 32)).take 32) = 0
                ∨ value32 ((C.drop (off + 32)).take 32) > C.length)))
      ∧ (value32 ((C.drop off).take 32) = SIGNATURE →
          value32 ((C.drop (off + 32)).take 32) ≠ 0 →
          value32 ((C.drop (off + 32)).take 32) ≤ C.length →
          off + 64 + 8 * value32 ((C.drop (off + 32)).take 32) ≤ C.length →
          revealData C
            = .ok ((List.range (value32 ((C.drop (off + 32)).take 32))).map
                (fun j => value8 ((C.drop (off + 64 + 8 * j)).take 8)))
          ∧ ((List.range (value32 ((C.drop (off + 32)).take 32))).map
                (fun j => value8 ((C.drop (off + 64 + 8 * j)).take 8))).length
              = value32 ((C.drop (off + 32)).take 32)) := by
  have h1 : iterateM (readStep32 C off) 32 (0, 0)
      = .ok (value32 ((C.drop off).take 32), 32) :=
    iterateM_readStep32 C off hC 32 0 0 (by omega)
  have hs := revealData_after_sig C off _ hv ho h1
  refine ⟨⟨?_, hs.1⟩, ?_, ?_⟩
  · intro h hsig
    rcases hs.2 hsig _ h with h2 | h2 <;> cases h2
  · intro hsig h64
    rw [revealData_valid C off hv ho hC h64, if_neg (by rw [hsig]; simp)]
    constructor
    · intro h
      by_contra hc
      rw [if_neg hc] at h
      have h3 := bind_pure_error h
      have h4 := foldlM_error _ (fun s a e4 h4 =>
        iterateM_error _ (readStep8_error C off) _ _ _ (bind_pure_error h4)) _ _ _ h3
      cases h4
    · intro hc
      rw [if_pos hc]
  · intro hsig hL0 _ hfit
    refine ⟨revealData_ok C off _ hv ho hC hsig rfl hL0 hfit, ?_⟩
    rw [List.length_map, List.length_range]

end ImageSteganography

/-! ## The empty payload -/

set_option maxRecDepth 1000000 in
/-- Counterexample to C19 as stated. With raster offset 1 the embedding of the empty
payload overwrites the marker byte 'M' and extraction fails with the structural error,
not with "Invalid data size detected". With raster offset 8 (`staleCarrier`) it rewrites
header bytes 11..13, extraction reads raster offset 264, finds the older frame stored
there and succeeds. -/
theorem empty_payload_counterexample :
    ImageSteganography.isValidBMP (ImageSteganography.sampleCarrier 1 64) = true
      ∧ ImageSteganography.getPixelDataOffset (ImageSteganography.sampleCarrier 1 64) = .ok 1
      ∧ 1 + 64 ≤ (ImageSteganography.sampleCarrier 1 64).length
      ∧ ImageSteganography.hideData [] (ImageSteganography.sampleCarrier 1 64)
          = .ok (ImageSteganography.embedded [] (ImageSteganography.sampleCarrier 1 64) 1)
      ∧ ImageSteganography.revealData
          (ImageSteganography.embedded [] (ImageSteganography.sampleCarrier 1 64) 1)
          = .error (.exception .invalidContainerReveal)
      ∧ ImageSteganography.isValidBMP ImageSteganography.staleCarrier = true
      ∧ ImageSteganography.getPixelDataOffset ImageSteganography.staleCarrier = .ok 8
      ∧ 8 + 64 ≤ ImageSteganography.staleCarrier.length
      ∧ ImageSteganography.hideData [] ImageSteganography.staleCarrier
          = .ok (ImageSteganography.embedded [] ImageSteganography.staleCarrier 8)
      ∧ ImageSteganography.revealData
          (ImageSteganography.embedded [] ImageSteganography.staleCarrier 8) = .ok [0x41] := by
  refine ⟨by decide, by rfl, by decide, by rfl, by rfl, by decide, by rfl, by decide, by rfl,
    by rfl⟩

/-- C19, amended (empty payload). Bitmap: for every carrier that passes the structural
check with `14 <= raster_offset` and at least 64 raster bytes, `hideData` accepts the
empty payload and writes a frame whose length field is 0, and `revealData` applied to
the output fails with "Invalid data size detected". Trailer: for every carrier,
`hideData` accepts the empty payload and appends the signature followed by the length
field `00 00 00 00`, and `revealData` applied to the output fails, with "Invalid data
size detected" when the carrier is non-empty and with "No hidden data found in
document" when it is empty. -/
theorem empty_payload (C : List Byte) :
    (∀ off, ImageSteganography.isValidBMP C = true →
        ImageSteganography.getPixelDataOffset C = .ok off → 14 ≤ off →
        off + 64 ≤ C.length → C.length ≤ MAX_SIZE →
        ImageSteganography.hideData [] C = .ok (ImageSteganography.embedded [] C off)
          ∧ ImageSteganography.value32
              (((ImageSteganography.embedded [] C off).drop (off + 32)).take 32) = 0
          ∧ ImageSteganography.revealData (ImageSteganography.embedded [] C off)
              = .error (.exception .invalidDataSize))
      ∧ (C.length + 8 ≤ MAX_SIZE →
          DocumentSteganography.hideData [] C = C ++ [0x44, 0x53, 0x54, 0x47] ++ [0, 0, 0, 0]
            ∧ (C ≠ [] → DocumentSteganography.revealData (DocumentSteganography.hideData [] C)
                = .error (.exception .invalidDataSize))
            ∧ (C = [] → DocumentSteganography.revealData (DocumentSteganography.hideData [] C)
                = .error (.exception .noHiddenDataDocument))) := by
  constructor
  · intro off hv ho h14 h64 hC
    have hfit : off + (64 + 8 * ([] : List Byte).length) ≤ C.length := by
      simp only [List.length_nil]; omega
    have hlen := ImageSteganography.embedded_length [] C off hfit
    have hhead := ImageSteganography.header_congr (ImageSteganography.embedded [] C off) C hlen
      (fun i hi => ImageSteganography.embedded_getElem? [] C off i (by omega) (by omega))
    have hsig : ImageSteganography.value32
        (((ImageSteganography.embedded [] C off).drop off).take 32)
        = ImageSteganography.SIGNATURE := by
      have := ImageSteganography.embedded_window [] C off 0 32 hfit (by simp)
      rw [Nat.add_zero] at this
      rw [ImageSteganography.value32_eq, this, ImageSteganography.frameBits_signature,
        ImageSteganography.bitsValue32_bitsMSB]
      rfl
    have hsize : ImageSteganography.value32
        (((ImageSteganography.embedded [] C off).drop (off + 32)).take 32) = 0 := by
      rw [ImageSteganography.value32_eq,
        ImageSteganography.embedded_window [] C off 32 32 hfit (by simp),
        ImageSteganography.frameBits_size, ImageSteganography.bitsValue32_bitsMSB]
      rfl
    refine ⟨ImageSteganography.hideData_ok [] C off hv ho (by omega) hC
      (by simp only [List.length_nil]; rw [ImageSteganography.max_size_eq]; omega)
      (by simp only [List.length_nil]; omega), hsize, ?_⟩
    rw [ImageSteganography.revealData_valid _ off (hhead.1.trans hv) (hhead.2.trans ho)
      (by rw [hlen]; exact hC) (by rw [hlen]; exact h64),
      if_neg (by rw [hsig]; simp), if_pos (Or.inl hsize)]
  · intro hsize
    have heq : DocumentSteganography.hideData [] C
        = C ++ (DocumentSteganography.sigBytes ++ (DocumentSteganography.be32 0 ++ [])) :=
      DocumentSteganography.hideData_eq [] C
    refine ⟨?_, ?_, ?_⟩
    · rw [heq, List.append_nil, ← List.append_assoc]
      rfl
    · intro hne
      rw [heq, DocumentSteganography.revealData_frame C [] 0 hne (by norm_num)
        (by rw [DocumentSteganography.length_frame]; exact hsize)
        (fun q h1 h2 => by simp only [List.length_nil] at h2; omega),
        if_pos (Or.inl rfl)]
    · intro he
      subst he
      rfl

set_option maxRecDepth 1000000 in
/-- Instance of the amended C19 on a 118-byte carrier with raster offset 54. -/
theorem empty_payload_witness :
    ImageSteganography.isValidBMP (ImageSteganography.sampleCarrier 54 64) = true
      ∧ ImageSteganography.getPixelDataOffset (ImageSteganography.sampleCarrier 54 64) = .ok 54
      ∧ 14 ≤ 54 ∧ 54 + 64 ≤ (ImageSteganography.sampleCarrier 54 64).length
      ∧ (ImageSteganography.sampleCarrier 54 64).length ≤ MAX_SIZE
      ∧ (ImageSteganography.sampleCarrier 54 64).length + 8 ≤ MAX_SIZE
      ∧ ImageSteganography.sampleCarrier 54 64 ≠ []
      ∧ ImageSteganography.revealData
          (ImageSteganography.embedded [] (ImageSteganography.sampleCarrier 54 64) 54)
          = .error (.exception .invalidDataSize)
      ∧ DocumentSteganography.revealData
          (DocumentSteganography.hideData [] (ImageSteganography.sampleCarrier 54 64))
          = .error (.exception .invalidDataSize) := by
  have hv : ImageSteganography.isValidBMP (ImageSteganography.sampleCarrier 54 64) = true := by
    decide
  have ho : ImageSteganography.getPixelDataOffset (ImageSteganography.sampleCarrier 54 64)
      = .ok 54 := by rfl
  have hl : (ImageSteganography.sampleCarrier 54 64).length = 118 := by decide
  have h1 : 54 + 64 ≤ (ImageSteganography.sampleCarrier 54 64).length := by rw [hl]
  have h2 : (ImageSteganography.sampleCarrier 54 64).length ≤ MAX_SIZE := by rw [hl]; decide
  have h3 : (ImageSteganography.sampleCarrier 54 64).length + 8 ≤ MAX_SIZE := by
    rw [hl]; decide
  have hne : ImageSteganography.sampleCarrier 54 64 ≠ [] := by
    intro h0
    rw [h0] at hl
    cases hl
  have ht := empty_payload (ImageSteganography.sampleCarrier 54 64)
  exact ⟨hv, ho, by decide, h1, h2, h3, hne, (ht.1 54 hv ho (by decide) h1 h2).2.2,
    (ht.2 h3).2.1 hne⟩

/-! ## Extraction decodes the low bits, most significant first -/

namespace ImageSteganography

theorem lowBitsValue_lt : ∀ seg : List Byte, lowBitsValue seg < 2 ^ seg.length
  | [] => by simp [lowBitsValue]
  | c :: rest => by
    have ih := lowBitsValue_lt rest
    have hb : c.val % 2 < 2 := Nat.mod_lt _ (by decide)
    have hp : 2 ^ (c :: rest).length = 2 * 2 ^ rest.length := by
      rw [List.length_cons, pow_succ]; ring
    rw [lowBitsValue, hp]
    nlinarith

/-- A shift-or loop on a `uint32_t` whose bit reader returns the value mod 2 computes
the positional value of the low bits. -/
theorem foldl_shiftOr32 (bit : Byte → Nat) (hbit : ∀ c : Byte, bit c = c.val % 2) :
    ∀ (seg : List Byte) (acc : Nat), acc * 2 ^ seg.length + lowBitsValue seg < 2 ^ 32 →
      seg.foldl (fun a c => ((a <<< 1) % UINT32_MOD) ||| bit c) acc
        = acc * 2 ^ seg.length + lowBitsValue seg
  | [], acc, _ => by simp [lowBitsValue]
  | c :: rest, acc, h => by
    have hp : 0 < 2 ^ rest.length := Nat.pow_pos (by decide)
    have hpow : 2 ^ (c :: rest).length = 2 * 2 ^ rest.length := by
      rw [List.length_cons, pow_succ]; ring
    have hb : c.val % 2 < 2 := Nat.mod_lt _ (by decide)
    have hkey : (acc * 2 + c.val % 2) * 2 ^ rest.length + lowBitsValue rest
        = acc * 2 ^ (c :: rest).length + lowBitsValue (c :: rest) := by
      rw [hpow, lowBitsValue]; ring
    have hacc : acc * 2 < 2 ^ 32 := by
      have h1 : acc * 2 ≤ acc * 2 ^ (c :: rest).length := by rw [hpow]; nlinarith
      omega
    have hstep : ((acc <<< 1) % UINT32_MOD) ||| bit c = acc * 2 + c.val % 2 := by
      have h1 : (acc <<< 1) % UINT32_MOD = acc <<< 1 := by
        rw [Nat.shiftLeft_eq]; exact Nat.mod_eq_of_lt (by simpa [UINT32_MOD] using hacc)
      rw [h1, hbit, shl_or_eq acc _ 1 (by simpa using hb)]
      norm_num
    rw [List.foldl_cons, hstep, foldl_shiftOr32 bit hbit rest _ (by rw [hkey]; exact h), hkey]

/-- A shift-or loop on an `unsigned char` whose bit reader returns the value mod 2
computes the positional value of the low bits. -/
theorem foldl_shiftOr8 (bit : Byte → Nat) (hbit : ∀ c : Byte, bit c = c.val % 2) :
    ∀ (seg : List Byte) (acc : Byte), acc.val * 2 ^ seg.length + lowBitsValue seg < 256 →
      (seg.foldl (fun (a : Byte) c => Fin.ofNat ((a.val <<< 1) ||| bit c)) acc).val
        = acc.val * 2 ^ seg.length + lowBitsValue seg
  | [], acc, _ => by simp [lowBitsValue]
  | c :: rest, acc, h => by
    have hp : 0 < 2 ^ rest.length := Nat.pow_pos (by decide)
    have hpow : 2 ^ (c :: rest).length = 2 * 2 ^ rest.length := by
      rw [List.length_cons, pow_succ]; ring
    have hb : c.val % 2 < 2 := Nat.mod_lt _ (by decide)
    have hkey : (acc.val * 2 + c.val % 2) * 2 ^ rest.length + lowBitsValue rest
        = acc.val * 2 ^ (c :: rest).length + lowBitsValue (c :: rest) := by
      rw [hpow, lowBitsValue]; ring
    have hacc : acc.val * 2 + c.val % 2 < 256 := by
      have h1 : (acc.val * 2 + c.val % 2) * 1 ≤ (acc.val * 2 + c.val % 2) * 2 ^ rest.length :=
        Nat.mul_le_mul_left _ hp
      omega
    have hstep : (Fin.ofNat ((acc.val <<< 1) ||| bit c) : Byte).val
        = acc.val * 2 + c.val % 2 := by
      rw [hbit, shl_or_eq acc.val _ 1 (by simpa using hb)]
      simp only [Fin.ofNat, pow_one]
      exact Nat.mod_eq_of_lt hacc
    rw [List.foldl_cons, foldl_shiftOr8 bit hbit rest _ (by rw [hstep, hkey]; exact h),
      hstep, hkey]

/-- C15 (bitmap extract decoding). For a carrier that passes the structural check, with
S the number whose binary digits, most significant first, are the low bits of
`C[off .. off+31]` and L the number formed the same way from `C[off+32 .. off+63]`, as
long as the raster bytes read lie within the carrier: `revealData` throws "No hidden
data found in image" exactly when `S != 0x53544547`; otherwise it throws "Invalid data
size detected" exactly when `L = 0` or `L > len(C)`; and otherwise it returns exactly L
bytes whose j-th byte is the number formed, most significant bit first, from the low
bits of `C[off+64+8j .. off+64+8j+7]`. -/
theorem bitmap_extract_decoding (C : List Byte) (off : Nat) (hv : isValidBMP C = true)
    (ho : getPixelDataOffset C = .ok off) (hC : C.length ≤ MAX_SIZE)
    (h32 : off + 32 ≤ C.length) :
    (revealData C = .error (.exception .noHiddenDataImage)
        ↔ lowBitsValue ((C.drop off).take 32) ≠ 0x53544547)
      ∧ (lowBitsValue ((C.drop off).take 32) = 0x53544547 → off + 64 ≤ C.length →
          (revealData C = .error (.exception .invalidDataSize)
            ↔ (lowBitsValue ((C.drop (off + 32)).take 32) = 0
                ∨ lowBitsValue ((C.drop (off + 32)).take 32) > C.length)))
      ∧ (lowBitsValue ((C.drop off).take 32) = 0x53544547 →
          lowBitsValue ((C.drop (off + 32)).take 32) ≠ 0 →
          lowBitsValue ((C.drop (off + 32)).take 32) ≤ C.length →
          off + 64 + 8 * lowBitsValue ((C.drop (off + 32)).take 32) ≤ C.length →
          ∃ out, revealData C = .ok out
            ∧ out.length = lowBitsValue ((C.drop (off + 32)).take 32)
            ∧ ∀ j, j < lowBitsValue ((C.drop (off + 32)).take 32) →
                ∃ b, out[j]? = some b
                  ∧ b.val = lowBitsValue ((C.drop (off + 64 + 8 * j)).take 8)) := by
  have hbit : ∀ c : Byte, extractBit c = c.val % 2 := fun c => Nat.and_one_is_mod c.val
  have h32v : ∀ seg : List Byte, seg.length ≤ 32 → value32 seg = lowBitsValue seg := by
    intro seg hseg
    have hlt := lowBitsValue_lt seg
    have hpow : 2 ^ seg.length ≤ 2 ^ 32 := Nat.pow_le_pow_right (by decide) hseg
    rw [value32, foldl_shiftOr32 extractBit hbit seg 0 (by omega)]
    omega
  have h8v : ∀ seg : List Byte, seg.length ≤ 8 → (value8 seg).val = lowBitsValue seg := by
    intro seg hseg
    have hlt := lowBitsValue_lt seg
    have hpow : 2 ^ seg.length ≤ 2 ^ 8 := Nat.pow_le_pow_right (by decide) hseg
    have h0 : ((0 : Byte).val) = 0 := rfl
    rw [value8, foldl_shiftOr8 extractBit hbit seg 0 (by rw [h0]; omega), h0]
    omega
  have hS : value32 ((C.drop off).take 32) = lowBitsValue ((C.drop off).take 32) :=
    h32v _ (by rw [List.length_take]; omega)
  have hL : value32 ((C.drop (off + 32)).take 32)
      = lowBitsValue ((C.drop (off + 32)).take 32) :=
    h32v _ (by rw [List.length_take]; omega)
  have hsigc : SIGNATURE = 0x53544547 := rfl
  have h := revealData_cases C off hv ho hC h32
  rw [hS, hL, hsigc] at h
  refine ⟨h.1, h.2.1, ?_⟩
  intro hsig hL0 hLle hfit
  obtain ⟨hres, hlen⟩ := h.2.2 hsig hL0 hLle hfit
  refine ⟨_, hres, hlen, ?_⟩
  intro j hj
  refine ⟨value8 ((C.drop (off + 64 + 8 * j)).take 8), ?_,
    h8v _ (by rw [List.length_take]; omega)⟩
  rw [List.getElem?_map, List.getElem?_range hj]
  rfl

set_option maxRecDepth 1000000 in
/-- Instance of C15: extraction from a carrier with raster bytes `0xA6` in which the
byte `0x41` was hidden. The first 32 low bits spell the signature, the next 32 the
length 1, and the byte returned is the one formed from the following 8 low bits. -/
theorem bitmap_extract_decoding_witness :
    isValidBMP (embedded [0x41] grayCarrier 54) = true
      ∧ getPixelDataOffset (embedded [0x41] grayCarrier 54) = .ok 54
      ∧ (embedded [0x41] grayCarrier 54).length ≤ MAX_SIZE
      ∧ 54 + 32 ≤ (embedded [0x41] grayCarrier 54).length
      ∧ lowBitsValue (((embedded [0x41] grayCarrier 54).drop 54).take 32) = 0x53544547
      ∧ lowBitsValue (((embedded [0x41] grayCarrier 54).drop (54 + 32)).take 32) = 1
      ∧ lowBitsValue (((embedded [0x41] grayCarrier 54).drop (54 + 64 + 8 * 0)).take 8) = 0x41
      ∧ revealData (embedded [0x41] grayCarrier 54) = .ok [0x41]
      ∧ ∃ out, revealData (embedded [0x41] grayCarrier 54) = .ok out
          ∧ out.length = 1
          ∧ ∀ j, j < 1 → ∃ b, out[j]? = some b
              ∧ b.val = lowBitsValue
                  (((embedded [0x41] grayCarrier 54).drop (54 + 64 + 8 * j)).take 8) := by
  have hv : isValidBMP (embedded [0x41] grayCarrier 54) = true := by decide
  have ho : getPixelDataOffset (embedded [0x41] grayCarrier 54) = .ok 54 := by rfl
  have hl : (embedded [0x41] grayCarrier 54).length = 126 := by decide
  have h1 : (embedded [0x41] grayCarrier 54).length ≤ MAX_SIZE := by
    rw [hl]; decide
  have h2 : 54 + 32 ≤ (embedded [0x41] grayCarrier 54).length := by
    rw [hl]; decide
  have hS : lowBitsValue (((embedded [0x41] grayCarrier 54).drop 54).take 32)
      = 0x53544547 := by decide
  have hL : lowBitsValue
      (((embedded [0x41] grayCarrier 54).drop (54 + 32)).take 32) = 1 := by decide
  have hB : lowBitsValue
      (((embedded [0x41] grayCarrier 54).drop (54 + 64 + 8 * 0)).take 8) = 0x41 := by decide
  have hR : revealData (embedded [0x41] grayCarrier 54) = .ok [0x41] := by rfl
  have h3 := (bitmap_extract_decoding _ 54 hv ho h1 h2).2.2 hS (by rw [hL]; decide)
    (by rw [hL, hl]; decide) (by rw [hL, hl])
  rw [hL] at h3
  exact ⟨hv, ho, h1, h2, hS, hL, hB, hR, h3⟩

set_option maxRecDepth 1000000 in
/-- C3, evaluation at the failing input. The 118-byte carrier `wrapCarrier` passes the
structural check and its header bytes 10..13 `ff ff ff ff` give the raster offset
`2^64 - 1`. With the empty payload the capacity check passes (8 required, 14
available, because `image.size() - pixelOffset` wraps to 119), the first write
`image[pixelOffset + 0]` is outside the vector, and the writes for `bitIndex` 1..63
wrap around to the indices 0..62, all below the raster offset: they turn the header
bytes 'B' 'M' into 'C' 'L'. -/
theorem hideData_header_overwritten :
    wrapCarrier.length = 118
      ∧ isValidBMP wrapCarrier = true
      ∧ getPixelDataOffset wrapCarrier = .ok 18446744073709551615
      ∧ (([] : List Byte).length + 4 + 4) % SIZE_MOD = 8
      ∧ ((wrapCarrier.length + SIZE_MOD - 18446744073709551615) % SIZE_MOD) / 8 = 14
      ∧ hideData [] wrapCarrier = .error .outOfBounds
      ∧ (∀ r a, hideData [] wrapCarrier ≠ .error (.exception (.capacity r a)))
      ∧ wrapCarrier.take 2 = [66, 77]
      ∧ (((frameBits []).drop 1).foldlM (embedStep 18446744073709551615)
            (wrapCarrier, 1)).map (fun st => (st.1.take 2, st.2))
          = .ok ([67, 76], 64) := by
  have h : hideData [] wrapCarrier = .error .outOfBounds := by rfl
  refine ⟨by decide, by decide, by rfl, by decide, by decide, h, ?_, by decide, by rfl⟩
  intro r a hc
  rw [h] at hc
  cases hc

end ImageSteganography

end Stego
